import Mathlib

/-
Verification of the scene-matching pipeline (location-match-tests).

The definitions below are a shallow embedding of the Python sources:
  * pair enumeration        : generate_pairs_generator, count_total_pairs
                              (lightglue_pipeline_cuda.py) and
                              generate_all_pairs (lightglue_pipeline_full.py);
  * the match engine        : process_match_batch (lightglue_pipeline_cuda.py),
                              match_all_pairs_batch (lightglue_pipeline_full.py),
                              with the external LightGlue comparator abstracted as
                              a function returning an outcome (success with a
                              match count and mean confidence, out-of-memory, or
                              a generic error), exactly as the spec's comparator
                              interface prescribes;
  * filtering / clustering  : filter_matches, build_scene_clusters (both
                              pipelines share this code verbatim) and
                              find_connected_components
                              (scripts/postprocessing/build_clusters_from_matches.py);
  * checkpoint loading      : the HDF5-keys / checkpoint-file merge at the top of
                              extract_features_cuda_batch (lightglue_pipeline_cuda.py).

Machine integers are modelled as Nat, Python floats as rationals, Python
strings as String.  Python sets and insertion-ordered dicts are modelled as
duplicate-free lists in first-insertion order (set iteration order is
unspecified in Python; every claim proved below is insensitive to that order).
The unbounded recursion of the Python DFS is modelled with a fuel parameter
that is set high enough to never run out (proved below).
-/

/-- Python truthiness of the optional `max_pairs` argument: both `None` and
`0` are falsy, any other integer is truthy.  (All caps appearing in the
pipeline are non-negative, so the cap is modelled as `Option Nat`.) -/
def capActive (maxPairs : Option Nat) : Bool :=
  match maxPairs with
  | none => false
  | some k => decide (k ≠ 0)

/-- Loop body of `generate_pairs_generator` (lightglue_pipeline_cuda.py,
lines 289-310): the nested loops `for i in range(n): for j in range(i+1, n)`
yield `(image_names[i], image_names[j])`, incrementing `pair_count` after each
yield and returning as soon as `max_pairs` is truthy and
`pair_count >= max_pairs`. -/
def generatePairsAux (names : List String) (maxPairs : Option Nat) (i j cnt : Nat) :
    List (String × String) :=
  if _hi : i < names.length then
    if _hj : j < names.length then
      let pair := (names.getD i "", names.getD j "")
      if capActive maxPairs = true ∧ maxPairs.getD 0 ≤ cnt + 1 then [pair]
      else pair :: generatePairsAux names maxPairs i (j + 1) (cnt + 1)
    else generatePairsAux names maxPairs (i + 1) (i + 2) cnt
  else []
termination_by (names.length - i, names.length - j)
decreasing_by
  · omega
  · omega

/-- `generate_pairs_generator(image_names, max_pairs)` from
lightglue_pipeline_cuda.py: the list of pairs the generator yields. -/
def generate_pairs_generator (image_names : List String) (max_pairs : Option Nat) :
    List (String × String) :=
  generatePairsAux image_names max_pairs 0 1 0

/-- `count_total_pairs` from lightglue_pipeline_cuda.py (lines 312-317):
`total = n*(n-1)//2; if max_pairs: return min(total, max_pairs); return total`. -/
def count_total_pairs (n_images : Nat) (max_pairs : Option Nat) : Nat :=
  let total := n_images * (n_images - 1) / 2
  if capActive max_pairs = true then min total (max_pairs.getD 0) else total

/-- Loop body of `generate_all_pairs` (lightglue_pipeline_full.py, lines
79-99): same nested loops, but accumulating the list `pairs` and returning it
as soon as `max_pairs` is truthy and `len(pairs) >= max_pairs`. -/
def generateAllPairsAux (names : List String) (maxPairs : Option Nat) (i j : Nat)
    (pairs : List (String × String)) : List (String × String) :=
  if _hi : i < names.length then
    if _hj : j < names.length then
      let pairs' := pairs ++ [(names.getD i "", names.getD j "")]
      if capActive maxPairs = true ∧ maxPairs.getD 0 ≤ pairs'.length then pairs'
      else generateAllPairsAux names maxPairs i (j + 1) pairs'
    else generateAllPairsAux names maxPairs (i + 1) (i + 2) pairs
  else pairs
termination_by (names.length - i, names.length - j)
decreasing_by
  · omega
  · omega

/-- `generate_all_pairs(image_names, max_pairs)` from lightglue_pipeline_full.py. -/
def generate_all_pairs (image_names : List String) (max_pairs : Option Nat) :
    List (String × String) :=
  generateAllPairsAux image_names max_pairs 0 1 []

/-- The mathematical `i < j` enumeration: row `i` taken from column `j`
upward.  Used to state what the generator produces. -/
def rowPairs (names : List String) (i j : Nat) : List (String × String) :=
  (List.range' j (names.length - j)).map (fun k => (names.getD i "", names.getD k ""))

/-- All `i < j` pairs of `names`, rows concatenated in order: the order
induced by the input ordering. -/
def pairsSpec (names : List String) : List (String × String) :=
  ((List.range names.length).map (fun i => rowPairs names i (i + 1))).flatten

/-- One row of the match CSV: the dict
`{image1, image2, matches, confidence, valid}` appended by the match loops.
Python's float confidence is modelled as a rational. -/
structure MatchRecord where
  image1 : String
  image2 : String
  match_count : Nat
  confidence : ℚ
  valid : Bool
deriving DecidableEq

/-- Outcome of one invocation of the external comparator (the LightGlue
`matcher` call plus the surrounding feature loads): success with a match count
and mean confidence, a `torch.cuda.OutOfMemoryError`, or any other exception. -/
inductive CompOutcome where
  | ok (matchCount : Nat) (confidence : ℚ)
  | oom
  | err
deriving DecidableEq

/-- The record appended for a pair that could not be evaluated:
`{'matches': 0, 'confidence': 0.0, 'valid': False}`. -/
def invalidRecord (a b : String) : MatchRecord :=
  { image1 := a, image2 := b, match_count := 0, confidence := 0, valid := false }

/-- The record appended for a successfully compared pair.  The source sets
`avg_confidence = confidence.mean().item() if num_matches > 0 else 0.0`;
the comparator abstraction returns the mean, and the zero-match guard is kept
here. -/
def validRecord (a b : String) (m : Nat) (c : ℚ) : MatchRecord :=
  { image1 := a, image2 := b, match_count := m,
    confidence := if 0 < m then c else 0, valid := true }

/-- The `for img1_name, img2_name in batch_pairs` loop inside the `try` of
`process_match_batch` (lightglue_pipeline_cuda.py lines 400-452; the same loop
appears in `match_all_pairs_batch`, lightglue_pipeline_full.py lines 110-154).
Pairs with a missing feature record get `invalidRecord` immediately, without
touching the comparator; otherwise the comparator runs, and an `oom`/`err`
outcome raises out of the loop.  Returns the records accumulated so far, the
list of pairs on which the comparator was invoked, and whether an exception
escaped the loop. -/
def processBatchLoop (store : List String) (cmp : String → String → CompOutcome) :
    List (String × String) → List MatchRecord → List (String × String) →
    List MatchRecord × List (String × String) × Bool
  | [], acc, inv => (acc, inv, false)
  | (a, b) :: rest, acc, inv =>
    if a ∈ store ∧ b ∈ store then
      match cmp a b with
      | .ok m c => processBatchLoop store cmp rest (acc ++ [validRecord a b m c]) (inv ++ [(a, b)])
      | _ => (acc, inv ++ [(a, b)], true)
    else processBatchLoop store cmp rest (acc ++ [invalidRecord a b]) inv

/-- `process_match_batch` (lightglue_pipeline_cuda.py lines 395-484): the
`try` loop above; both `except` handlers append an `invalidRecord` for every
pair of `batch_pairs` to the records already accumulated. -/
def process_match_batch (store : List String) (cmp : String → String → CompOutcome)
    (batch_pairs : List (String × String)) : List MatchRecord :=
  let r := processBatchLoop store cmp batch_pairs [] []
  if r.2.2 then r.1 ++ batch_pairs.map (fun p => invalidRecord p.1 p.2) else r.1

/-- The pairs on which the comparator was actually invoked while processing a
batch. -/
def batchInvoked (store : List String) (cmp : String → String → CompOutcome)
    (batch_pairs : List (String × String)) : List (String × String) :=
  (processBatchLoop store cmp batch_pairs [] []).2.1

/-- Python's `pairs[i:i+batch_size]` chunking (`range(0, len(pairs), bs)`),
for a positive step; the list length is enough fuel. -/
def toBatchesAux (bs : Nat) : Nat → List (String × String) → List (List (String × String))
  | 0, _ => []
  | _, [] => []
  | fuel + 1, l => l.take bs :: toBatchesAux bs fuel (l.drop bs)

/-- Split the pair list into batches of `bs` (the last one possibly short). -/
def toBatches (bs : Nat) (l : List (String × String)) : List (List (String × String)) :=
  toBatchesAux bs l.length l

/-- `match_all_pairs_batch` (lightglue_pipeline_full.py lines 101-168): the
outer loop over batches, concatenating each batch's records. -/
def match_all_pairs_batch (store : List String) (cmp : String → String → CompOutcome)
    (pairs : List (String × String)) (batch_size : Nat) : List MatchRecord :=
  ((toBatches batch_size pairs).map (process_match_batch store cmp)).flatten

/-- `filter_matches` (identical in lightglue_pipeline_full.py lines 170-176
and lightglue_pipeline_cuda.py lines 501-507):
`m['valid'] and m['matches'] >= min_matches and m['confidence'] >= min_confidence`. -/
def filter_matches (all_matches : List MatchRecord) (min_matches : Nat)
    (min_confidence : ℚ) : List MatchRecord :=
  all_matches.filter (fun m =>
    m.valid && decide (min_matches ≤ m.match_count) && decide (min_confidence ≤ m.confidence))

/-- Fold a list into a duplicate-free list, keeping first occurrences, on top
of an initial accumulator.  This is the Python idiom
`for x in l: if x not in acc: acc.append(x)` used by the checkpoint merge, and
it also models iteration over a Python set/dict in first-insertion order. -/
def mergeNoDup (init : List String) (l : List String) : List String :=
  l.foldl (fun acc x => if x ∈ acc then acc else acc ++ [x]) init

/-- Duplicate-free list of the elements of `l` in first-occurrence order. -/
def pyDedup (l : List String) : List String := mergeNoDup [] l

/-- The neighbor set `graph[x]` of the adjacency `defaultdict(set)` built by
`build_scene_clusters` / `build_graph`: each pair `(a, b)` contributes
`graph[a].add(b)` and `graph[b].add(a)`. -/
def neighbors (edges : List (String × String)) (x : String) : List String :=
  pyDedup (edges.filterMap (fun e =>
    if e.1 = x then some e.2 else if e.2 = x then some e.1 else none))

/-- The node set of the graph: every endpoint of every edge (this is both the
`all_images` set of the pipelines and the key set of the scripts' graph dict). -/
def graphKeys (edges : List (String × String)) : List String :=
  pyDedup (edges.flatMap (fun e => [e.1, e.2]))

/-- Edge relation of the built graph. -/
def adjacent (edges : List (String × String)) (x y : String) : Prop :=
  ∃ e ∈ edges, (e.1 = x ∧ e.2 = y) ∨ (e.1 = y ∧ e.2 = x)

/-- The recursive `dfs(node, cluster)` shared by `build_scene_clusters` (both
pipelines) and `find_connected_components`
(scripts/postprocessing/build_clusters_from_matches.py): return if the node
is visited, otherwise mark it, append it to the current cluster and recurse
into its neighbors.  (The scripts' variant tests `visited` at the call site
instead of at entry, which produces the same visited set and the same cluster
membership; the cluster there is a Python set, so member order is
irrelevant.)  The state is `(visited, cluster)`; the recursion carries fuel,
which callers set large enough that it never runs out. -/
def dfs (edges : List (String × String)) :
    Nat → String → List String × List String → List String × List String
  | 0, _, s => s
  | fuel + 1, node, s =>
    if node ∈ s.1 then s
    else (neighbors edges node).foldl (fun t n => dfs edges fuel n t)
      (node :: s.1, s.2 ++ [node])

/-- The component-collecting loop `for node in nodes: if node not in visited:
dfs(node, cluster); clusters.append(cluster)` with no size filter (the
scripts' version); returns the final `(visited, clusters)`. -/
def componentsFold (edges : List (String × String)) (nodes : List String)
    (fuel : Nat) : List String × List (List String) :=
  nodes.foldl (fun st node =>
    if node ∈ st.1 then st
    else
      let r := dfs edges fuel node (st.1, [])
      (r.1, st.2 ++ [r.2])) ([], [])

/-- The edge list a record list induces (`match['image1'], match['image2']`). -/
def edgesOfMatches (ms : List MatchRecord) : List (String × String) :=
  ms.map (fun m => (m.image1, m.image2))

/-- `build_scene_clusters` (lightglue_pipeline_full.py lines 178-209,
lightglue_pipeline_cuda.py lines 509-540): build the adjacency graph, DFS
from every unvisited image, and keep a cluster only `if len(cluster) > 1`. -/
def build_scene_clusters (records : List MatchRecord) : List (List String) :=
  let edges := edgesOfMatches records
  let images := graphKeys edges
  (images.foldl (fun st image =>
    if image ∈ st.1 then st
    else
      let r := dfs edges (images.length + 1) image (st.1, [])
      if 1 < r.2.length then (r.1, st.2 ++ [r.2]) else (r.1, st.2)) ([], [])).2

/-- `find_connected_components`
(scripts/postprocessing/build_clusters_from_matches.py lines 64-94): DFS over
the graph keys collecting every component, then
`clusters.sort(key=len, reverse=True)` — a stable sort by descending size,
modelled by insertion sort with the corresponding total preorder. -/
def find_connected_components (pairs : List (String × String)) : List (List String) :=
  let images := graphKeys pairs
  List.insertionSort (fun a b => b.length ≤ a.length)
    (componentsFold pairs images (images.length + 1)).2

/-- Size of the largest returned cluster (0 when there is none). -/
def maxClusterSize (clusters : List (List String)) : Nat :=
  (clusters.map List.length).foldr max 0

/-- The member lines written for one cluster file: Python's
`for img in sorted(cluster)` (lightglue_pipeline_full.py line 257,
build_clusters_from_matches.py line 112), modelled as a stable sort in
code-point order — `sorted` compares strings by their character sequences,
which is exactly `String.toList` ordering (equal to `≤` on `String`). -/
def clusterFileLines (cluster : List String) : List String :=
  List.insertionSort (fun a b : String => a.toList ≤ b.toList) cluster

/-- The lexicographically smallest member of a cluster. -/
def minMember (cluster : List String) : String :=
  (clusterFileLines cluster).headD ""

/-- Modelled from the spec: the component ordering claimed by the spec's
determinism sentence — descending size, ties broken by the lexicographically
smallest member ImageID.  (Stated from the spec's words to compare with what
`find_connected_components` actually returns.) -/
def sizeThenMinOrdered (clusters : List (List String)) : Prop :=
  clusters.Pairwise (fun C D =>
    D.length < C.length ∨ (D.length = C.length ∧ minMember C ≤ minMember D))

/-- The checkpoint merge at the top of `extract_features_cuda_batch`
(lightglue_pipeline_cuda.py lines 124-158): `processed_images` starts as the
HDF5 key list, then every checkpoint-file line not already present is
appended. -/
def load_processed_images (h5_keys checkpoint_images : List String) : List String :=
  mergeNoDup h5_keys checkpoint_images

/-- `remaining_paths = [p for p in image_paths if p.name not in processed_images]`
(lightglue_pipeline_cuda.py line 158), with paths represented by their names. -/
def remainingImages (image_names processed : List String) : List String :=
  image_names.filter (fun p => decide (p ∉ processed))

/-- Number of graph nodes not yet visited; the DFS fuel is measured against
this. -/
def freshCount (edges : List (String × String)) (V : List String) : Nat :=
  (graphKeys edges).countP (fun z => decide (z ∉ V))

/-- Invariant of the component-collecting fold: the visited set is the union
of the collected components, which are pairwise disjoint, duplicate-free,
nonempty, mutually reachable, closed under adjacency, and contained in the
node set; the visited set itself is adjacency-closed. -/
def ClusterInv (edges : List (String × String))
    (st : List String × List (List String)) : Prop :=
  (∀ x ∈ st.1, x ∈ graphKeys edges) ∧
  (∀ x ∈ st.1, ∀ y, adjacent edges x y → y ∈ st.1) ∧
  (∀ x, x ∈ st.1 ↔ ∃ C ∈ st.2, x ∈ C) ∧
  st.2.Pairwise (fun C D => ∀ x ∈ C, x ∉ D) ∧
  (∀ C ∈ st.2, C.Nodup) ∧
  (∀ C ∈ st.2, ∀ x ∈ C, ∀ y ∈ C, Relation.ReflTransGen (adjacent edges) x y) ∧
  (∀ C ∈ st.2, ∀ x ∈ C, ∀ y, adjacent edges x y → y ∈ C) ∧
  (∀ C ∈ st.2, C ≠ [])

/-
Pair enumeration: lemmas about the generator loops.
-/

theorem genAux_stop (names : List String) (mp : Option Nat) {i : Nat} (j cnt : Nat)
    (hi : ¬ i < names.length) : generatePairsAux names mp i j cnt = [] := by
  rw [generatePairsAux]; simp [hi]

theorem genAux_nextRow (names : List String) (mp : Option Nat) {i j : Nat} (cnt : Nat)
    (hi : i < names.length) (hj : ¬ j < names.length) :
    generatePairsAux names mp i j cnt = generatePairsAux names mp (i + 1) (i + 2) cnt := by
  rw [generatePairsAux]; simp [hi, hj]

theorem genAux_capStop (names : List String) (mp : Option Nat) {i j cnt : Nat}
    (hi : i < names.length) (hj : j < names.length)
    (hcap : capActive mp = true ∧ mp.getD 0 ≤ cnt + 1) :
    generatePairsAux names mp i j cnt = [(names.getD i "", names.getD j "")] := by
  rw [generatePairsAux]; simp [hi, hj, hcap]

theorem genAux_cons (names : List String) (mp : Option Nat) {i j cnt : Nat}
    (hi : i < names.length) (hj : j < names.length)
    (hcap : ¬ (capActive mp = true ∧ mp.getD 0 ≤ cnt + 1)) :
    generatePairsAux names mp i j cnt =
      (names.getD i "", names.getD j "") :: generatePairsAux names mp i (j + 1) (cnt + 1) := by
  rw [generatePairsAux]; simp only [dif_pos hi, dif_pos hj, if_neg hcap]

theorem genAux_inactive (names : List String) (mp : Option Nat) (hc : capActive mp = false)
    (i j cnt : Nat) :
    generatePairsAux names mp i j cnt = generatePairsAux names none i j cnt := by
  induction i, j, cnt using generatePairsAux.induct names mp with
  | case1 i j cnt hi hj hcap => rw [hc] at hcap; simp at hcap
  | case2 i j cnt hi hj hcap ih =>
      rw [genAux_cons names mp hi hj hcap, genAux_cons names none hi hj (by simp [capActive]), ih]
  | case3 i j cnt hi hj ih =>
      rw [genAux_nextRow names mp cnt hi hj, genAux_nextRow names none cnt hi hj, ih]
  | case4 i j cnt hi => rw [genAux_stop names mp j cnt hi, genAux_stop names none j cnt hi]

theorem rowPairs_cons (names : List String) (i : Nat) {j : Nat} (hj : j < names.length) :
    rowPairs names i j = (names.getD i "", names.getD j "") :: rowPairs names i (j + 1) := by
  have h : names.length - j = (names.length - (j + 1)) + 1 := by omega
  rw [rowPairs, h, List.range'_succ]
  simp [rowPairs]

theorem rowPairs_nil (names : List String) (i : Nat) {j : Nat} (hj : ¬ j < names.length) :
    rowPairs names i j = [] := by
  have h : names.length - j = 0 := by omega
  rw [rowPairs, h]; simp

theorem genAux_none_cnt (names : List String) (i j cnt cnt' : Nat) :
    generatePairsAux names none i j cnt = generatePairsAux names none i j cnt' := by
  induction i, j, cnt using generatePairsAux.induct names none generalizing cnt' with
  | case1 i j cnt hi hj hcap => simp [capActive] at hcap
  | case2 i j cnt hi hj hcap ih =>
      rw [genAux_cons names none hi hj hcap,
        genAux_cons names none hi hj (by simp [capActive]), ih (cnt' + 1)]
  | case3 i j cnt hi hj ih =>
      rw [genAux_nextRow names none cnt hi hj, genAux_nextRow names none cnt' hi hj, ih cnt']
  | case4 i j cnt hi => rw [genAux_stop names none j cnt hi, genAux_stop names none j cnt' hi]

theorem genAux_none_row (names : List String) {i : Nat} (j cnt : Nat) (hi : i < names.length) :
    generatePairsAux names none i j cnt =
      rowPairs names i j ++ generatePairsAux names none (i + 1) (i + 2) cnt := by
  induction i, j, cnt using generatePairsAux.induct names none with
  | case1 i j cnt hi hj hcap => simp [capActive] at hcap
  | case2 i j cnt hi' hj hcap ih =>
      rw [genAux_cons names none hi hj hcap, rowPairs_cons names i hj, ih hi]
      simp [genAux_none_cnt names (i + 1) (i + 2) (cnt + 1) cnt]
  | case3 i j cnt hi' hj ih =>
      rw [genAux_nextRow names none cnt hi hj, rowPairs_nil names i hj]
      simp
  | case4 i j cnt hi' => exact absurd hi hi'

theorem genAux_none_rows (names : List String) (i cnt : Nat) :
    generatePairsAux names none i (i + 1) cnt =
      ((List.range' i (names.length - i)).map (fun r => rowPairs names r (r + 1))).flatten := by
  by_cases hi : i < names.length
  · have h : names.length - i = (names.length - (i + 1)) + 1 := by omega
    rw [genAux_none_row names (i + 1) cnt hi, h, List.range'_succ]
    simp only [List.map_cons, List.flatten_cons]
    have := genAux_none_rows names (i + 1) cnt
    rw [this]
  · have h : names.length - i = 0 := by omega
    rw [genAux_stop names none (i + 1) cnt hi, h]
    simp
termination_by names.length - i
decreasing_by omega

theorem generate_none_eq_pairsSpec (names : List String) :
    generatePairsAux names none 0 1 0 = pairsSpec names := by
  rw [genAux_none_rows names 0 0, pairsSpec, List.range_eq_range']
  simp

theorem genAux_take (names : List String) (mp : Option Nat) (hc : capActive mp = true) :
    ∀ i j cnt, cnt < mp.getD 0 →
      generatePairsAux names mp i j cnt =
        (generatePairsAux names none i j cnt).take (mp.getD 0 - cnt) := by
  intro i j cnt
  induction i, j, cnt using generatePairsAux.induct names mp with
  | case1 i j cnt hi hj hcap =>
      intro hlt
      rw [genAux_capStop names mp hi hj hcap,
        genAux_cons names none hi hj (by simp [capActive])]
      have : mp.getD 0 - cnt = 1 := by omega
      rw [this]
      simp
  | case2 i j cnt hi hj hcap ih =>
      intro hlt
      have hcnt : cnt + 1 < mp.getD 0 := by
        rcases Decidable.not_and_iff_or_not.mp hcap with h | h
        · exact absurd hc h
        · omega
      rw [genAux_cons names mp hi hj hcap, genAux_cons names none hi hj (by simp [capActive]),
        ih hcnt]
      have h2 : mp.getD 0 - cnt = (mp.getD 0 - (cnt + 1)) + 1 := by omega
      rw [h2]
      simp
  | case3 i j cnt hi hj ih =>
      intro hlt
      rw [genAux_nextRow names mp cnt hi hj, genAux_nextRow names none cnt hi hj, ih hlt]
  | case4 i j cnt hi =>
      intro hlt
      rw [genAux_stop names mp j cnt hi, genAux_stop names none j cnt hi]
      simp

theorem rowPairs_length (names : List String) (i j : Nat) :
    (rowPairs names i j).length = names.length - j := by
  simp [rowPairs]

theorem sumRow_succ (n : Nat) :
    ((List.range (n + 1)).map (fun i => (n + 1) - (i + 1))).sum =
      n + ((List.range n).map (fun i => n - (i + 1))).sum := by
  rw [List.range_succ_eq_map]
  simp only [List.map_cons, List.map_map, List.sum_cons, Nat.add_sub_cancel]
  congr 1
  refine congrArg List.sum (List.map_congr_left ?_)
  intro a _
  simp only [Function.comp]
  omega

theorem sumRow_doubled (n : Nat) :
    2 * ((List.range n).map (fun i => n - (i + 1))).sum = n * (n - 1) := by
  induction n with
  | zero => simp
  | succ m ih =>
      rw [sumRow_succ m, Nat.mul_add, ih, Nat.add_sub_cancel]
      cases m with
      | zero => simp
      | succ k =>
          rw [Nat.succ_sub_one]
          ring

theorem sumRow_eq (n : Nat) :
    ((List.range n).map (fun i => n - (i + 1))).sum = n * (n - 1) / 2 := by
  have h := sumRow_doubled n
  omega

theorem pairsSpec_length (names : List String) :
    (pairsSpec names).length = names.length * (names.length - 1) / 2 := by
  rw [pairsSpec, List.length_flatten, List.map_map]
  have h : (List.map (List.length ∘ fun i => rowPairs names i (i + 1))
      (List.range names.length)) =
      (List.range names.length).map (fun i => names.length - (i + 1)) := by
    apply List.map_congr_left
    intro a _
    simp [rowPairs_length]
  rw [h, sumRow_eq]

theorem getD_inj (names : List String) (hd : names.Nodup) {i j : Nat}
    (hi : i < names.length) (hj : j < names.length) :
    names.getD i "" = names.getD j "" ↔ i = j := by
  rw [List.getD_eq_getElem names "" hi, List.getD_eq_getElem names "" hj]
  exact hd.getElem_inj_iff

theorem count_row_other (names : List String) (hd : names.Nodup) {a r : Nat} (b : Nat)
    (hr : r < names.length) (ha : a < names.length) (hne : r ≠ a) :
    (rowPairs names r (r + 1)).count (names.getD a "", names.getD b "") = 0 := by
  rw [rowPairs, List.count_eq_countP, List.countP_map]
  rw [List.countP_eq_zero]
  intro k _
  simp only [Function.comp, beq_iff_eq, Prod.mk.injEq, not_and]
  intro h
  exact absurd ((getD_inj names hd hr ha).mp h) hne

theorem count_row_eq_one (names : List String) (hd : names.Nodup) {i j : Nat}
    (hij : i < j) (hj : j < names.length) :
    (rowPairs names i (i + 1)).count (names.getD i "", names.getD j "") = 1 := by
  rw [rowPairs, List.count_eq_countP, List.countP_map]
  have hcong : List.countP ((fun x => x == (names.getD i "", names.getD j "")) ∘
      fun k => (names.getD i "", names.getD k "")) (List.range' (i + 1) (names.length - (i + 1))) =
      List.countP (fun k => k == j) (List.range' (i + 1) (names.length - (i + 1))) := by
    apply List.countP_congr
    intro k hk
    have hklt : k < names.length := by
      rcases List.mem_range'_1.mp hk with ⟨h1, h2⟩
      omega
    simp only [Function.comp, beq_iff_eq, Prod.mk.injEq, true_and]
    exact getD_inj names hd hklt hj
  rw [hcong, ← List.count_eq_countP]
  apply List.count_eq_one_of_mem (List.nodup_range' _ _)
  rw [List.mem_range'_1]
  omega

theorem count_row_swap (names : List String) (hd : names.Nodup) {i j : Nat}
    (hij : i < j) (hj : j < names.length) :
    (rowPairs names j (j + 1)).count (names.getD j "", names.getD i "") = 0 := by
  rw [rowPairs, List.count_eq_countP, List.countP_map]
  rw [List.countP_eq_zero]
  intro k hk
  have hklt : k < names.length := by
    rcases List.mem_range'_1.mp hk with ⟨h1, h2⟩
    omega
  have hkgt : j + 1 ≤ k := (List.mem_range'_1.mp hk).1
  simp only [Function.comp, beq_iff_eq, Prod.mk.injEq, not_and, true_implies]
  intro h
  have := (getD_inj names hd hklt (by omega : i < names.length)).mp h
  omega

theorem sum_ind (n i : Nat) :
    ((List.range n).map (fun r => if r = i then 1 else 0)).sum = if i < n then 1 else 0 := by
  induction n with
  | zero => simp
  | succ m ih =>
      rw [List.range_succ, List.map_append, List.sum_append, ih]
      simp only [List.map_cons, List.map_nil, List.sum_cons, List.sum_nil]
      split_ifs <;> omega

theorem pairsSpec_count_one (names : List String) (hd : names.Nodup) {i j : Nat}
    (hij : i < j) (hj : j < names.length) :
    (pairsSpec names).count (names.getD i "", names.getD j "") = 1 := by
  rw [pairsSpec, List.count_flatten, List.map_map]
  have hcong : List.map (List.count (names.getD i "", names.getD j "") ∘
      fun r => rowPairs names r (r + 1)) (List.range names.length) =
      (List.range names.length).map (fun r => if r = i then 1 else 0) := by
    apply List.map_congr_left
    intro r hr
    have hrlt : r < names.length := List.mem_range.mp hr
    simp only [Function.comp]
    by_cases hri : r = i
    · subst hri
      rw [count_row_eq_one names hd hij hj, if_pos rfl]
    · rw [count_row_other names hd j hrlt (by omega) hri, if_neg hri]
  rw [hcong, sum_ind, if_pos (by omega)]

theorem pairsSpec_count_swap (names : List String) (hd : names.Nodup) {i j : Nat}
    (hij : i < j) (hj : j < names.length) :
    (pairsSpec names).count (names.getD j "", names.getD i "") = 0 := by
  rw [pairsSpec, List.count_flatten, List.map_map]
  apply List.sum_eq_zero
  intro x hx
  rcases List.mem_map.mp hx with ⟨r, hr, hxr⟩
  have hrlt : r < names.length := List.mem_range.mp hr
  simp only [Function.comp] at hxr
  by_cases hrj : r = j
  · subst hrj
    rw [← hxr, count_row_swap names hd hij hj]
  · rw [← hxr, count_row_other names hd i hrlt hj hrj]

theorem genAllAux_eq (names : List String) (mp : Option Nat) :
    ∀ i j acc, generateAllPairsAux names mp i j acc =
      acc ++ generatePairsAux names mp i j acc.length := by
  intro i j acc
  induction i, j, acc using generateAllPairsAux.induct names mp with
  | case1 i j acc hi hj p hcap =>
      have hcap' : capActive mp = true ∧ mp.getD 0 ≤ acc.length + 1 := by
        simpa [p] using hcap
      rw [generateAllPairsAux]
      simp only [dif_pos hi, dif_pos hj]
      rw [if_pos (by simpa using hcap')]
      rw [genAux_capStop names mp hi hj hcap']
  | case2 i j acc hi hj p hcap ih =>
      have hcap' : ¬ (capActive mp = true ∧ mp.getD 0 ≤ acc.length + 1) := by
        simpa [p] using hcap
      rw [generateAllPairsAux]
      simp only [dif_pos hi, dif_pos hj]
      rw [if_neg (by simpa using hcap')]
      rw [ih, genAux_cons names mp hi hj hcap']
      simp [p]
  | case3 i j acc hi hj ih =>
      rw [generateAllPairsAux]
      simp only [dif_pos hi, dif_neg hj]
      rw [ih, genAux_nextRow names mp acc.length hi hj]
  | case4 i j acc hi =>
      rw [generateAllPairsAux]
      simp only [dif_neg hi]
      rw [genAux_stop names mp j acc.length hi]
      simp

/-- C1 (counterexample): with a cap of 0 the enumerator does NOT yield
`min(N(N-1)/2, 0) = 0` pairs — Python tests the cap for truthiness, so a
zero cap is ignored and all pairs are produced; `count_total_pairs`
likewise returns the full total rather than 0. -/
theorem C1_counterexample :
    (generate_pairs_generator ["a", "b"] (some 0)).length ≠
      min (["a", "b"].length * (["a", "b"].length - 1) / 2) 0 ∧
    count_total_pairs 2 (some 0) ≠ min (2 * (2 - 1) / 2) 0 := by
  constructor
  · rw [generate_pairs_generator, genAux_inactive _ _ (by decide),
      generate_none_eq_pairsSpec, pairsSpec_length]
    decide
  · decide

/-- C1 (amended: the cap, when given, must be positive; a cap of 0 acts as
"no cap", see C10): for every name list and every positive cap `c`,
`generate_pairs_generator` with no cap yields exactly the `i<j` pairs in the
order induced by the input ordering (`pairsSpec`), hence `N(N-1)/2` pairs;
with cap `c` it yields exactly the first `c` of them, hence
`min(N(N-1)/2, c)` pairs; `count_total_pairs` returns `min(N(N-1)/2, c)`
(and the full total without a cap); for duplicate-free names every unordered
pair appears exactly once (the `i<j` orientation once, the reverse never,
and at most once under the cap); and `generate_all_pairs` of
lightglue_pipeline_full.py produces the same lists. -/
theorem C1_pair_enumeration (names : List String) (c : Nat) (hc : 0 < c) :
    generate_pairs_generator names none = pairsSpec names ∧
    (generate_pairs_generator names none).length =
      names.length * (names.length - 1) / 2 ∧
    generate_pairs_generator names (some c) = (pairsSpec names).take c ∧
    (generate_pairs_generator names (some c)).length =
      min (names.length * (names.length - 1) / 2) c ∧
    count_total_pairs names.length (some c) =
      min (names.length * (names.length - 1) / 2) c ∧
    count_total_pairs names.length none = names.length * (names.length - 1) / 2 ∧
    (names.Nodup → ∀ i j : Nat, i < j → j < names.length →
      (generate_pairs_generator names none).count
        (names.getD i "", names.getD j "") = 1 ∧
      (generate_pairs_generator names none).count
        (names.getD j "", names.getD i "") = 0 ∧
      (generate_pairs_generator names (some c)).count
        (names.getD i "", names.getD j "") ≤ 1) ∧
    generate_all_pairs names (some c) = generate_pairs_generator names (some c) ∧
    generate_all_pairs names none = generate_pairs_generator names none := by
  have hnone : generate_pairs_generator names none = pairsSpec names :=
    generate_none_eq_pairsSpec names
  have hcap : capActive (some c) = true := by
    simp [capActive]; omega
  have hsome : generate_pairs_generator names (some c) = (pairsSpec names).take c := by
    rw [generate_pairs_generator, genAux_take names (some c) hcap 0 1 0 (by simpa using hc),
      generate_none_eq_pairsSpec]
    simp
  refine ⟨hnone, ?_, hsome, ?_, ?_, ?_, ?_, ?_, ?_⟩
  · rw [hnone, pairsSpec_length]
  · rw [hsome, List.length_take, pairsSpec_length, Nat.min_comm]
  · rw [count_total_pairs]
    simp [hcap]
  · rw [count_total_pairs]
    simp [capActive]
  · intro hd i j hij hj
    refine ⟨?_, ?_, ?_⟩
    · rw [hnone]; exact pairsSpec_count_one names hd hij hj
    · rw [hnone]; exact pairsSpec_count_swap names hd hij hj
    · rw [hsome]
      calc ((pairsSpec names).take c).count (names.getD i "", names.getD j "")
          ≤ (pairsSpec names).count (names.getD i "", names.getD j "") :=
            (List.take_sublist c _).count_le _
        _ = 1 := pairsSpec_count_one names hd hij hj
  · rw [generate_all_pairs, genAllAux_eq names (some c) 0 1 []]
    simp [generate_pairs_generator]
  · rw [generate_all_pairs, genAllAux_eq names none 0 1 []]
    simp [generate_pairs_generator]

/-- C1 (witness): the amended statement instantiated at three names and
cap 2. -/
theorem C1_pair_enumeration_witness :
    0 < 2 ∧ generate_pairs_generator ["a", "b", "c"] (some 2) =
      (pairsSpec ["a", "b", "c"]).take 2 :=
  ⟨by decide, (C1_pair_enumeration ["a", "b", "c"] 2 (by decide)).2.2.1⟩

/-- C10: a pair cap of 0 is treated as "no cap": `generate_pairs_generator`
and `generate_all_pairs` with `max_pairs = 0` yield all `N(N-1)/2` pairs and
`count_total_pairs n 0` returns `n(n-1)/2`, because the cap is tested for
Python truthiness rather than for presence. -/
theorem C10_zero_cap_means_no_cap (names : List String) :
    generate_pairs_generator names (some 0) = generate_pairs_generator names none ∧
    (generate_pairs_generator names (some 0)).length =
      names.length * (names.length - 1) / 2 ∧
    count_total_pairs names.length (some 0) =
      names.length * (names.length - 1) / 2 ∧
    generate_all_pairs names (some 0) = generate_pairs_generator names none := by
  have h0 : generate_pairs_generator names (some 0) = generate_pairs_generator names none := by
    rw [generate_pairs_generator, generate_pairs_generator,
      genAux_inactive names (some 0) (by decide)]
  refine ⟨h0, ?_, ?_, ?_⟩
  · rw [h0, generate_pairs_generator, generate_none_eq_pairsSpec, pairsSpec_length]
  · rw [count_total_pairs]
    simp [capActive]
  · rw [generate_all_pairs, genAllAux_eq names (some 0) 0 1 [], ← h0]
    simp [generate_pairs_generator]

/-
Match engine: lemmas about the batch loop.
-/

theorem loop_acc_prefix (store : List String) (cmp : String → String → CompOutcome) :
    ∀ (l : List (String × String)) (acc : List MatchRecord) (inv : List (String × String)),
      ∃ d, (processBatchLoop store cmp l acc inv).1 = acc ++ d := by
  intro l
  induction l with
  | nil => intro acc inv; exact ⟨[], by simp [processBatchLoop]⟩
  | cons p rest ih =>
      intro acc inv
      obtain ⟨a, b⟩ := p
      rw [processBatchLoop]
      by_cases hab : a ∈ store ∧ b ∈ store
      · rw [if_pos hab]
        cases hcb : cmp a b with
        | ok m c =>
            obtain ⟨d, hd⟩ := ih (acc ++ [validRecord a b m c]) (inv ++ [(a, b)])
            exact ⟨[validRecord a b m c] ++ d, by simp [hd]⟩
        | oom => exact ⟨[], by simp⟩
        | err => exact ⟨[], by simp⟩
      · rw [if_neg hab]
        obtain ⟨d, hd⟩ := ih (acc ++ [invalidRecord a b]) inv
        exact ⟨[invalidRecord a b] ++ d, by simp [hd]⟩

theorem loop_invoked_bothStore (store : List String) (cmp : String → String → CompOutcome) :
    ∀ (l : List (String × String)) (acc : List MatchRecord) (inv : List (String × String))
      (p : String × String), p ∈ (processBatchLoop store cmp l acc inv).2.1 →
      p ∈ inv ∨ (p.1 ∈ store ∧ p.2 ∈ store) := by
  intro l
  induction l with
  | nil => intro acc inv p hp; simp [processBatchLoop] at hp; exact Or.inl hp
  | cons q rest ih =>
      intro acc inv p hp
      obtain ⟨a, b⟩ := q
      rw [processBatchLoop] at hp
      by_cases hab : a ∈ store ∧ b ∈ store
      · rw [if_pos hab] at hp
        cases hcb : cmp a b with
        | ok m c =>
            rw [hcb] at hp
            rcases ih _ _ p hp with h | h
            · rcases List.mem_append.mp h with h' | h'
              · exact Or.inl h'
              · simp at h'
                subst h'
                exact Or.inr hab
            · exact Or.inr h
        | oom =>
            rw [hcb] at hp
            simp at hp
            rcases hp with h | h
            · exact Or.inl h
            · subst h; exact Or.inr hab
        | err =>
            rw [hcb] at hp
            simp at hp
            rcases hp with h | h
            · exact Or.inl h
            · subst h; exact Or.inr hab
      · rw [if_neg hab] at hp
        exact ih _ _ p hp

theorem loop_invoked_sublist (store : List String) (cmp : String → String → CompOutcome) :
    ∀ (l : List (String × String)) (acc : List MatchRecord) (inv : List (String × String)),
      ∃ d, (processBatchLoop store cmp l acc inv).2.1 = inv ++ d ∧ d.Sublist l := by
  intro l
  induction l with
  | nil => intro acc inv; exact ⟨[], by simp [processBatchLoop], List.nil_sublist _⟩
  | cons q rest ih =>
      intro acc inv
      obtain ⟨a, b⟩ := q
      rw [processBatchLoop]
      by_cases hab : a ∈ store ∧ b ∈ store
      · rw [if_pos hab]
        cases hcb : cmp a b with
        | ok m c =>
            obtain ⟨d, hd, hsub⟩ := ih (acc ++ [validRecord a b m c]) (inv ++ [(a, b)])
            exact ⟨(a, b) :: d, by simp [hd], List.Sublist.cons₂ _ hsub⟩
        | oom =>
            exact ⟨[(a, b)], by simp, by
              exact List.Sublist.cons₂ _ (List.nil_sublist _)⟩
        | err =>
            exact ⟨[(a, b)], by simp, by
              exact List.Sublist.cons₂ _ (List.nil_sublist _)⟩
      · rw [if_neg hab]
        obtain ⟨d, hd, hsub⟩ := ih (acc ++ [invalidRecord a b]) inv
        exact ⟨d, hd, hsub.cons _⟩

theorem loop_noexc_missing (store : List String) (cmp : String → String → CompOutcome) :
    ∀ (l : List (String × String)) (acc : List MatchRecord) (inv : List (String × String)),
      (processBatchLoop store cmp l acc inv).2.2 = false →
      ∀ p ∈ l, ¬ (p.1 ∈ store ∧ p.2 ∈ store) →
        invalidRecord p.1 p.2 ∈ (processBatchLoop store cmp l acc inv).1 := by
  intro l
  induction l with
  | nil => intro acc inv _ p hp; simp at hp
  | cons q rest ih =>
      intro acc inv hexc p hp hmiss
      obtain ⟨a, b⟩ := q
      rw [processBatchLoop] at hexc ⊢
      by_cases hab : a ∈ store ∧ b ∈ store
      · rw [if_pos hab] at hexc ⊢
        cases hcb : cmp a b with
        | ok m c =>
            rw [hcb] at hexc
            rcases List.mem_cons.mp hp with h | h
            · subst h; exact absurd hab hmiss
            · exact ih _ _ hexc p h hmiss
        | oom => rw [hcb] at hexc; simp at hexc
        | err => rw [hcb] at hexc; simp at hexc
      · rw [if_neg hab] at hexc ⊢
        rcases List.mem_cons.mp hp with h | h
        · subst h
          obtain ⟨d, hd⟩ := loop_acc_prefix store cmp rest (acc ++ [invalidRecord a b]) inv
          rw [hd]
          simp
        · exact ih _ _ hexc p h hmiss

theorem loop_rec_shape (store : List String) (cmp : String → String → CompOutcome) :
    ∀ (l : List (String × String)) (acc : List MatchRecord) (inv : List (String × String)),
      ∀ r ∈ (processBatchLoop store cmp l acc inv).1, r ∈ acc ∨
        ∃ x y, (x, y) ∈ l ∧
          ((x ∈ store ∧ y ∈ store ∧ ∃ m c, r = validRecord x y m c) ∨
           (¬ (x ∈ store ∧ y ∈ store) ∧ r = invalidRecord x y)) := by
  intro l
  induction l with
  | nil => intro acc inv r hr; simp [processBatchLoop] at hr; exact Or.inl hr
  | cons q rest ih =>
      intro acc inv r hr
      obtain ⟨a, b⟩ := q
      rw [processBatchLoop] at hr
      by_cases hab : a ∈ store ∧ b ∈ store
      · rw [if_pos hab] at hr
        cases hcb : cmp a b with
        | ok m c =>
            rw [hcb] at hr
            rcases ih _ _ r hr with h | ⟨x, y, hxy, hcase⟩
            · rcases List.mem_append.mp h with h' | h'
              · exact Or.inl h'
              · simp at h'
                exact Or.inr ⟨a, b, by simp, Or.inl ⟨hab.1, hab.2, m, c, h'⟩⟩
            · exact Or.inr ⟨x, y, List.mem_cons_of_mem _ hxy, hcase⟩
        | oom => rw [hcb] at hr; exact Or.inl hr
        | err => rw [hcb] at hr; exact Or.inl hr
      · rw [if_neg hab] at hr
        rcases ih _ _ r hr with h | ⟨x, y, hxy, hcase⟩
        · rcases List.mem_append.mp h with h' | h'
          · exact Or.inl h'
          · simp at h'
            exact Or.inr ⟨a, b, by simp, Or.inr ⟨hab, h'⟩⟩
        · exact Or.inr ⟨x, y, List.mem_cons_of_mem _ hxy, hcase⟩

/-- C2 (code bug): a batch in which the comparator succeeds on the first pair
and then raises on the second produces TWO records for the first pair — the
valid one from the loop plus the blanket `valid:false` record the exception
handler appends for every pair of the batch — violating the one-record-per-
pair invariant. -/
theorem C2_duplicate_records_on_batch_failure :
    (match_all_pairs_batch ["x", "y", "z"]
        (fun a b => if a = "x" ∧ b = "y" then CompOutcome.ok 10 (1/2) else CompOutcome.err)
        [("x", "y"), ("x", "z")] 2).countP
      (fun r => r.image1 == "x" && r.image2 == "y") = 2 := by
  decide

/-- C3 (counterexample): when the comparator exhausts resources mid-batch,
the `valid:false` records are NOT limited to the remaining pairs: the pair
`("x","y")` is successfully processed (it has a valid record) and is not a
remaining pair, yet it also receives a `valid:false` record, because the
handler re-emits the entire batch. -/
theorem C3_counterexample :
    (process_match_batch ["x", "y", "z"]
        (fun a b => if a = "x" ∧ b = "y" then CompOutcome.ok 10 (1/2) else CompOutcome.oom)
        [("x", "y"), ("x", "z")]).countP
      (fun r => r.valid && r.image1 == "x" && r.image2 == "y") = 1 ∧
    (process_match_batch ["x", "y", "z"]
        (fun a b => if a = "x" ∧ b = "y" then CompOutcome.ok 10 (1/2) else CompOutcome.oom)
        [("x", "y"), ("x", "z")]).countP
      (fun r => !r.valid && r.image1 == "x" && r.image2 == "y") = 1 := by
  constructor
  · decide
  · decide

/-- C3 (amended: on resource exhaustion — or any other exception — during a
batch, the engine emits `valid:false` records for the ENTIRE batch, not just
the remaining pairs, so pairs already successfully processed in that batch
receive a duplicate record): the output is the already-accumulated records
followed by one `valid:false` record per batch pair; every pair of the batch
therefore ends up recorded rather than dropped; and the batch is not retried —
the comparator invocations form a sublist of the batch, so no pair is ever
compared twice per batch occurrence. -/
theorem C3_exhaustion_records_whole_batch (store : List String)
    (cmp : String → String → CompOutcome) (batch : List (String × String))
    (hexc : (processBatchLoop store cmp batch [] []).2.2 = true) :
    process_match_batch store cmp batch =
      (processBatchLoop store cmp batch [] []).1 ++
        batch.map (fun p => invalidRecord p.1 p.2) ∧
    (∀ p ∈ batch, invalidRecord p.1 p.2 ∈ process_match_batch store cmp batch) ∧
    (batchInvoked store cmp batch).Sublist batch := by
  have heq : process_match_batch store cmp batch =
      (processBatchLoop store cmp batch [] []).1 ++
        batch.map (fun p => invalidRecord p.1 p.2) := by
    rw [process_match_batch]
    simp only [hexc]
    simp
  refine ⟨heq, ?_, ?_⟩
  · intro p hp
    rw [heq]
    apply List.mem_append_right
    exact List.mem_map.mpr ⟨p, hp, rfl⟩
  · obtain ⟨d, hd, hsub⟩ := loop_invoked_sublist store cmp batch [] []
    rw [batchInvoked, hd]
    simpa using hsub

/-- C3 (witness): the amended statement instantiated at the concrete
mid-batch out-of-memory scenario. -/
theorem C3_exhaustion_records_whole_batch_witness :
    (processBatchLoop ["u", "v", "w"]
        (fun _ _ => CompOutcome.oom) [("u", "v"), ("u", "w")] [] []).2.2 = true ∧
    (batchInvoked ["u", "v", "w"]
        (fun _ _ => CompOutcome.oom) [("u", "v"), ("u", "w")]).Sublist
      [("u", "v"), ("u", "w")] :=
  ⟨by decide, (C3_exhaustion_records_whole_batch ["u", "v", "w"]
      (fun _ _ => CompOutcome.oom) [("u", "v"), ("u", "w")] (by decide)).2.2⟩

/-- C4: for every pair of which at least one image has no stored feature
record, the engine emits `{valid:false, match_count:0, confidence:0.0}` for
that pair, every record it emits for that pair is that record, and the
comparator is never invoked on it. -/
theorem C4_missing_features_skip_comparator (store : List String)
    (cmp : String → String → CompOutcome) (batch : List (String × String))
    (a b : String) (hmem : (a, b) ∈ batch) (hmiss : ¬ (a ∈ store ∧ b ∈ store)) :
    invalidRecord a b ∈ process_match_batch store cmp batch ∧
    (a, b) ∉ batchInvoked store cmp batch ∧
    ∀ r ∈ process_match_batch store cmp batch,
      r.image1 = a → r.image2 = b → r = invalidRecord a b := by
  refine ⟨?_, ?_, ?_⟩
  · by_cases hexc : (processBatchLoop store cmp batch [] []).2.2 = true
    · rw [process_match_batch]
      simp only [hexc]
      apply List.mem_append_right
      exact List.mem_map.mpr ⟨(a, b), hmem, rfl⟩
    · have hf : (processBatchLoop store cmp batch [] []).2.2 = false := by
        simpa using hexc
      rw [process_match_batch]
      simp only [hf]
      exact loop_noexc_missing store cmp batch [] [] hf (a, b) hmem hmiss
  · intro hin
    rcases loop_invoked_bothStore store cmp batch [] [] (a, b) hin with h | h
    · simp at h
    · exact hmiss h
  · intro r hr h1 h2
    rw [process_match_batch] at hr
    have hloop : ∀ r' ∈ (processBatchLoop store cmp batch [] []).1,
        r'.image1 = a → r'.image2 = b → r' = invalidRecord a b := by
      intro r' hr' h1' h2'
      rcases loop_rec_shape store cmp batch [] [] r' hr' with h | ⟨x, y, _, hcase⟩
      · simp at h
      · rcases hcase with ⟨hx, hy, m, c, hval⟩ | ⟨hmiss', hinv⟩
        · exfalso
          apply hmiss
          rw [hval] at h1' h2'
          simp [validRecord] at h1' h2'
          exact ⟨h1' ▸ hx, h2' ▸ hy⟩
        · rw [hinv] at h1' h2' ⊢
          simp [invalidRecord] at h1' h2'
          rw [h1', h2']
    by_cases hexc : (processBatchLoop store cmp batch [] []).2.2 = true
    · simp only [hexc] at hr
      rcases List.mem_append.mp hr with h | h
      · exact hloop r h h1 h2
      · rcases List.mem_map.mp h with ⟨p, _, hp⟩
        rw [← hp] at h1 h2 ⊢
        simp [invalidRecord] at h1 h2
        rw [h1, h2]
    · have hf : (processBatchLoop store cmp batch [] []).2.2 = false := by
        simpa using hexc
      simp only [hf] at hr
      exact hloop r hr h1 h2

/-- C4 (witness): a batch containing a pair whose first image has no stored
features. -/
theorem C4_missing_features_skip_comparator_witness :
    ("q", "y") ∈ [(("q" : String), ("y" : String))] ∧
    ¬ ("q" ∈ ["y"] ∧ "y" ∈ ["y"]) ∧
    invalidRecord "q" "y" ∈
      process_match_batch ["y"] (fun _ _ => CompOutcome.err) [("q", "y")] :=
  ⟨by decide, by decide,
    (C4_missing_features_skip_comparator ["y"] (fun _ _ => CompOutcome.err)
      [("q", "y")] "q" "y" (by decide) (by decide)).1⟩

/-
Graph model: membership and adjacency lemmas.
-/

theorem mergeNoDup_mem (l : List String) :
    ∀ (init : List String) (x : String), x ∈ mergeNoDup init l ↔ x ∈ init ∨ x ∈ l := by
  induction l with
  | nil => intro init x; simp [mergeNoDup]
  | cons y l ih =>
      intro init x
      have hstep : mergeNoDup init (y :: l) =
          mergeNoDup (if y ∈ init then init else init ++ [y]) l := by
        rw [mergeNoDup, List.foldl_cons, mergeNoDup]
      rw [hstep, ih]
      by_cases hy : y ∈ init
      · simp only [if_pos hy, List.mem_cons]
        constructor
        · rintro (h | h)
          · exact Or.inl h
          · exact Or.inr (Or.inr h)
        · rintro (h | h | h)
          · exact Or.inl h
          · exact Or.inl (h ▸ hy)
          · exact Or.inr h
      · simp only [if_neg hy, List.mem_append, List.mem_singleton, List.mem_cons]
        tauto

theorem mergeNoDup_nodup (l : List String) :
    ∀ init : List String, init.Nodup → (mergeNoDup init l).Nodup := by
  induction l with
  | nil => intro init h; simpa [mergeNoDup] using h
  | cons y l ih =>
      intro init h
      have hstep : mergeNoDup init (y :: l) =
          mergeNoDup (if y ∈ init then init else init ++ [y]) l := by
        rw [mergeNoDup, List.foldl_cons, mergeNoDup]
      rw [hstep]
      apply ih
      by_cases hy : y ∈ init
      · simpa [if_pos hy] using h
      · rw [if_neg hy]
        simp [List.nodup_append, h, hy]

theorem pyDedup_mem (l : List String) (x : String) : x ∈ pyDedup l ↔ x ∈ l := by
  rw [pyDedup, mergeNoDup_mem]
  simp

theorem pyDedup_nodup (l : List String) : (pyDedup l).Nodup :=
  mergeNoDup_nodup l [] (by simp)

theorem mem_graphKeys (edges : List (String × String)) (x : String) :
    x ∈ graphKeys edges ↔ ∃ e ∈ edges, x = e.1 ∨ x = e.2 := by
  rw [graphKeys, pyDedup_mem, List.mem_flatMap]
  constructor
  · rintro ⟨e, he, hx⟩
    simp at hx
    exact ⟨e, he, hx⟩
  · rintro ⟨e, he, hx⟩
    exact ⟨e, he, by simp [hx]⟩

theorem mem_neighbors (edges : List (String × String)) (x y : String) :
    y ∈ neighbors edges x ↔ adjacent edges x y := by
  rw [neighbors, pyDedup_mem, List.mem_filterMap, adjacent]
  constructor
  · rintro ⟨e, he, hy⟩
    by_cases h1 : e.1 = x
    · rw [if_pos h1] at hy
      exact ⟨e, he, Or.inl ⟨h1, by simpa using hy⟩⟩
    · rw [if_neg h1] at hy
      by_cases h2 : e.2 = x
      · rw [if_pos h2] at hy
        exact ⟨e, he, Or.inr ⟨by simpa using hy, h2⟩⟩
      · rw [if_neg h2] at hy
        simp at hy
  · rintro ⟨e, he, h | h⟩
    · exact ⟨e, he, by rw [if_pos h.1, h.2]⟩
    · refine ⟨e, he, ?_⟩
      by_cases h1 : e.1 = x
      · rw [if_pos h1]
        exact congrArg some (h.2.trans (h1.symm.trans h.1))
      · rw [if_neg h1, if_pos h.2]
        exact congrArg some h.1

theorem adjacent_symm (edges : List (String × String)) :
    Symmetric (adjacent edges) := by
  rintro x y ⟨e, he, h | h⟩
  · exact ⟨e, he, Or.inr h⟩
  · exact ⟨e, he, Or.inl h⟩

theorem adjacent_mem_keys (edges : List (String × String)) {x y : String}
    (h : adjacent edges x y) : x ∈ graphKeys edges ∧ y ∈ graphKeys edges := by
  rcases h with ⟨e, he, h | h⟩
  · exact ⟨(mem_graphKeys edges x).mpr ⟨e, he, Or.inl h.1.symm⟩,
      (mem_graphKeys edges y).mpr ⟨e, he, Or.inr h.2.symm⟩⟩
  · exact ⟨(mem_graphKeys edges x).mpr ⟨e, he, Or.inr h.2.symm⟩,
      (mem_graphKeys edges y).mpr ⟨e, he, Or.inl h.1.symm⟩⟩

theorem adjacent_mono {edges' edges : List (String × String)}
    (hsub : edges' ⊆ edges) {x y : String} (h : adjacent edges' x y) :
    adjacent edges x y := by
  rcases h with ⟨e, he, hcase⟩
  exact ⟨e, hsub he, hcase⟩

theorem reach_symm (edges : List (String × String)) :
    Symmetric (Relation.ReflTransGen (adjacent edges)) :=
  Relation.ReflTransGen.symmetric (adjacent_symm edges)

theorem reach_closed (edges : List (String × String)) {C : List String}
    (hclosed : ∀ x ∈ C, ∀ y, adjacent edges x y → y ∈ C) {x y : String}
    (hx : x ∈ C) (hxy : Relation.ReflTransGen (adjacent edges) x y) : y ∈ C := by
  induction hxy with
  | refl => exact hx
  | tail _ hadj ih => exact hclosed _ ih _ hadj

/-
DFS: what one call adds to the state (any fuel).
-/

theorem dfsFold_spec (edges : List (String × String)) (fuel : Nat)
    (ih : ∀ (node : String) (V c : List String),
      ∃ d, (dfs edges fuel node (V, c)).2 = c ++ d ∧
        (∀ x, x ∈ (dfs edges fuel node (V, c)).1 ↔ x ∈ d ∨ x ∈ V) ∧
        d.Nodup ∧ (∀ x ∈ d, x ∉ V) ∧
        (∀ x ∈ d, Relation.ReflTransGen (adjacent edges) node x) ∧
        (∀ x ∈ d, x = node ∨ x ∈ graphKeys edges)) :
    ∀ (ns : List String) (V c : List String),
      ∃ d, (List.foldl (fun t n => dfs edges fuel n t) (V, c) ns).2 = c ++ d ∧
        (∀ x, x ∈ (List.foldl (fun t n => dfs edges fuel n t) (V, c) ns).1 ↔
          x ∈ d ∨ x ∈ V) ∧
        d.Nodup ∧ (∀ x ∈ d, x ∉ V) ∧
        (∀ x ∈ d, ∃ n ∈ ns, Relation.ReflTransGen (adjacent edges) n x) ∧
        (∀ x ∈ d, x ∈ ns ∨ x ∈ graphKeys edges) := by
  intro ns
  induction ns with
  | nil =>
      intro V c
      exact ⟨[], by simp, by simp, by simp, by simp, by simp, by simp⟩
  | cons n ns ihns =>
      intro V c
      obtain ⟨d₁, h1, hmem1, hnodup1, hdisj1, hreach1, helem1⟩ := ih n V c
      obtain ⟨d₂, h2, hmem2, hnodup2, hdisj2, hreach2, helem2⟩ :=
        ihns (dfs edges fuel n (V, c)).1 (dfs edges fuel n (V, c)).2
      rw [Prod.mk.eta] at h2 hmem2
      refine ⟨d₁ ++ d₂, ?_, ?_, ?_, ?_, ?_, ?_⟩
      · rw [List.foldl_cons, h2, h1, List.append_assoc]
      · intro x
        rw [List.foldl_cons, hmem2 x, hmem1 x, List.mem_append]
        tauto
      · refine List.Nodup.append hnodup1 hnodup2 ?_
        intro x hx1 hx2
        exact hdisj2 x hx2 ((hmem1 x).mpr (Or.inl hx1))
      · intro x hx
        rcases List.mem_append.mp hx with h | h
        · exact hdisj1 x h
        · intro hxV
          exact hdisj2 x h ((hmem1 x).mpr (Or.inr hxV))
      · intro x hx
        rcases List.mem_append.mp hx with h | h
        · exact ⟨n, List.mem_cons_self n ns, hreach1 x h⟩
        · obtain ⟨n', hn', hr⟩ := hreach2 x h
          exact ⟨n', List.mem_cons_of_mem n hn', hr⟩
      · intro x hx
        rcases List.mem_append.mp hx with h | h
        · rcases helem1 x h with h' | h'
          · exact Or.inl (h' ▸ List.mem_cons_self n ns)
          · exact Or.inr h'
        · rcases helem2 x h with h' | h'
          · exact Or.inl (List.mem_cons_of_mem n h')
          · exact Or.inr h'

theorem dfs_spec (edges : List (String × String)) :
    ∀ (fuel : Nat) (node : String) (V c : List String),
      ∃ d, (dfs edges fuel node (V, c)).2 = c ++ d ∧
        (∀ x, x ∈ (dfs edges fuel node (V, c)).1 ↔ x ∈ d ∨ x ∈ V) ∧
        d.Nodup ∧ (∀ x ∈ d, x ∉ V) ∧
        (∀ x ∈ d, Relation.ReflTransGen (adjacent edges) node x) ∧
        (∀ x ∈ d, x = node ∨ x ∈ graphKeys edges) := by
  intro fuel
  induction fuel with
  | zero =>
      intro node V c
      exact ⟨[], by simp [dfs], by simp [dfs], by simp, by simp, by simp, by simp⟩
  | succ fuel ih =>
      intro node V c
      by_cases hv : node ∈ V
      · refine ⟨[], ?_, ?_, by simp, by simp, by simp, by simp⟩
        · rw [dfs]
          simp [hv]
        · intro x
          rw [dfs]
          simp [hv]
      · obtain ⟨d, h2, hmem, hnodup, hdisj, hreach, helem⟩ :=
          dfsFold_spec edges fuel ih (neighbors edges node) (node :: V) (c ++ [node])
        have hstep : dfs edges (fuel + 1) node (V, c) =
            List.foldl (fun t n => dfs edges fuel n t) (node :: V, c ++ [node])
              (neighbors edges node) := by
          rw [dfs]
          simp [hv]
        refine ⟨node :: d, ?_, ?_, ?_, ?_, ?_, ?_⟩
        · rw [hstep, h2]
          simp
        · intro x
          rw [hstep, hmem x]
          simp only [List.mem_cons]
          tauto
        · rw [List.nodup_cons]
          exact ⟨fun hx => hdisj node hx (List.mem_cons_self _ _), hnodup⟩
        · intro x hx
          rcases List.mem_cons.mp hx with h | h
          · exact h ▸ hv
          · intro hxV
            exact hdisj x h (List.mem_cons_of_mem _ hxV)
        · intro x hx
          rcases List.mem_cons.mp hx with h | h
          · exact h ▸ Relation.ReflTransGen.refl
          · obtain ⟨n, hn, hr⟩ := hreach x h
            exact Relation.ReflTransGen.head ((mem_neighbors edges node n).mp hn) hr
        · intro x hx
          rcases List.mem_cons.mp hx with h | h
          · exact Or.inl h
          · rcases helem x h with h' | h'
            · exact Or.inr (adjacent_mem_keys edges
                ((mem_neighbors edges node x).mp h')).2
            · exact Or.inr h'

/-
DFS: with enough fuel the traversal visits its whole component.
-/

theorem freshCount_mono (edges : List (String × String)) {V W : List String}
    (h : ∀ x ∈ V, x ∈ W) : freshCount edges W ≤ freshCount edges V := by
  apply List.countP_mono_left
  intro z _ hz
  simp only [decide_eq_true_eq] at hz ⊢
  intro hzV
  exact hz (h z hzV)

theorem freshCount_le_length (edges : List (String × String)) (V : List String) :
    freshCount edges V ≤ (graphKeys edges).length :=
  List.countP_le_length _

theorem freshCount_lt (edges : List (String × String)) {node : String} {V : List String}
    (hk : node ∈ graphKeys edges) (hv : node ∉ V) :
    freshCount edges (node :: V) < freshCount edges V := by
  rw [freshCount, freshCount, List.countP_eq_length_filter, List.countP_eq_length_filter]
  have hsub : ((graphKeys edges).filter (fun z => decide (z ∉ node :: V))).Sublist
      ((graphKeys edges).filter (fun z => decide (z ∉ V))) := by
    apply List.monotone_filter_right
    intro a ha
    simp only [decide_eq_true_eq, List.mem_cons] at ha ⊢
    intro haV
    exact ha (Or.inr haV)
  have hle := hsub.length_le
  rcases Nat.lt_or_ge ((List.filter (fun z => decide (z ∉ node :: V)) (graphKeys edges)).length)
      ((List.filter (fun z => decide (z ∉ V)) (graphKeys edges)).length) with h | h
  · exact h
  · exfalso
    have heq := hsub.eq_of_length (Nat.le_antisymm hle h)
    have hmem1 : node ∈ (graphKeys edges).filter (fun z => decide (z ∉ V)) :=
      List.mem_filter.mpr ⟨hk, by simpa using hv⟩
    rw [← heq] at hmem1
    have := (List.mem_filter.mp hmem1).2
    simp at this

theorem dfs_visited_mono (edges : List (String × String)) (fuel : Nat) (node : String)
    (V c : List String) {x : String} (hx : x ∈ V) :
    x ∈ (dfs edges fuel node (V, c)).1 := by
  obtain ⟨d, _, hmem, _⟩ := dfs_spec edges fuel node V c
  exact (hmem x).mpr (Or.inr hx)

theorem dfsFold_visited_mono (edges : List (String × String)) (fuel : Nat)
    (ns : List String) (V c : List String) {x : String} (hx : x ∈ V) :
    x ∈ (List.foldl (fun t n => dfs edges fuel n t) (V, c) ns).1 := by
  obtain ⟨d, _, hmem, _⟩ := dfsFold_spec edges fuel (dfs_spec edges fuel) ns V c
  exact (hmem x).mpr (Or.inr hx)

theorem dfsFold_closed (edges : List (String × String)) (fuel : Nat)
    (ihc : ∀ (node : String) (V c : List String), node ∈ graphKeys edges →
      freshCount edges V < fuel →
      node ∈ (dfs edges fuel node (V, c)).1 ∧
      (∀ x, x ∈ (dfs edges fuel node (V, c)).1 → x ∉ V →
        ∀ y, adjacent edges x y → y ∈ (dfs edges fuel node (V, c)).1)) :
    ∀ (ns : List String) (V c : List String), (∀ n ∈ ns, n ∈ graphKeys edges) →
      freshCount edges V < fuel →
      (∀ n ∈ ns, n ∈ (List.foldl (fun t n => dfs edges fuel n t) (V, c) ns).1) ∧
      (∀ x, x ∈ (List.foldl (fun t n => dfs edges fuel n t) (V, c) ns).1 → x ∉ V →
        ∀ y, adjacent edges x y →
          y ∈ (List.foldl (fun t n => dfs edges fuel n t) (V, c) ns).1) := by
  intro ns
  induction ns with
  | nil =>
      intro V c _ _
      constructor
      · intro n hn; simp at hn
      · intro x hx hxV
        simp at hx
        exact absurd hx hxV
  | cons n ns ihns =>
      intro V c hkeys hb
      have hn : n ∈ graphKeys edges := hkeys n (List.mem_cons_self n ns)
      obtain ⟨hnin, hclo1⟩ := ihc n V c hn hb
      have hVsub : ∀ x ∈ V, x ∈ (dfs edges fuel n (V, c)).1 := by
        intro x hx
        exact dfs_visited_mono edges fuel n V c hx
      have hb1 : freshCount edges (dfs edges fuel n (V, c)).1 < fuel :=
        lt_of_le_of_lt (freshCount_mono edges hVsub) hb
      have hkeys1 : ∀ m ∈ ns, m ∈ graphKeys edges := by
        intro m hm
        exact hkeys m (List.mem_cons_of_mem n hm)
      obtain ⟨hA, hB⟩ := ihns (dfs edges fuel n (V, c)).1 (dfs edges fuel n (V, c)).2
        hkeys1 hb1
      rw [Prod.mk.eta] at hA hB
      have hmono : ∀ x, x ∈ (dfs edges fuel n (V, c)).1 →
          x ∈ (List.foldl (fun t m => dfs edges fuel m t) (V, c) (n :: ns)).1 := by
        intro x hx
        rw [List.foldl_cons]
        have := dfsFold_visited_mono edges fuel ns (dfs edges fuel n (V, c)).1
          (dfs edges fuel n (V, c)).2 hx
        rw [Prod.mk.eta] at this
        exact this
      constructor
      · intro m hm
        rcases List.mem_cons.mp hm with h | h
        · exact hmono m (h ▸ hnin)
        · rw [List.foldl_cons]
          exact hA m h
      · intro x hx hxV y hadj
        rw [List.foldl_cons] at hx ⊢
        by_cases hx1 : x ∈ (dfs edges fuel n (V, c)).1
        · have hy1 := hclo1 x hx1 hxV y hadj
          have := dfsFold_visited_mono edges fuel ns (dfs edges fuel n (V, c)).1
            (dfs edges fuel n (V, c)).2 hy1
          rw [Prod.mk.eta] at this
          exact this
        · exact hB x hx hx1 y hadj

theorem dfs_closed (edges : List (String × String)) :
    ∀ (fuel : Nat) (node : String) (V c : List String),
      node ∈ graphKeys edges → freshCount edges V < fuel →
      node ∈ (dfs edges fuel node (V, c)).1 ∧
      (∀ x, x ∈ (dfs edges fuel node (V, c)).1 → x ∉ V →
        ∀ y, adjacent edges x y → y ∈ (dfs edges fuel node (V, c)).1) := by
  intro fuel
  induction fuel with
  | zero =>
      intro node V c _ hb
      exact absurd hb (by omega)
  | succ fuel ih =>
      intro node V c hk hb
      by_cases hv : node ∈ V
      · have hstep : dfs edges (fuel + 1) node (V, c) = (V, c) := by
          rw [dfs]; simp [hv]
        rw [hstep]
        refine ⟨hv, ?_⟩
        intro x hx hxV
        exact absurd hx hxV
      · have hstep : dfs edges (fuel + 1) node (V, c) =
            List.foldl (fun t n => dfs edges fuel n t) (node :: V, c ++ [node])
              (neighbors edges node) := by
          rw [dfs]; simp [hv]
        have hb' : freshCount edges (node :: V) < fuel := by
          have h1 := freshCount_lt edges hk hv
          omega
        have hkeys : ∀ n ∈ neighbors edges node, n ∈ graphKeys edges := by
          intro n hn
          exact (adjacent_mem_keys edges ((mem_neighbors edges node n).mp hn)).2
        obtain ⟨hA, hB⟩ := dfsFold_closed edges fuel ih (neighbors edges node)
          (node :: V) (c ++ [node]) hkeys hb'
        rw [hstep]
        constructor
        · exact dfsFold_visited_mono edges fuel _ _ _ (List.mem_cons_self node V)
        · intro x hx hxV y hadj
          by_cases hxn : x = node
          · subst hxn
            exact hA y ((mem_neighbors edges x y).mpr hadj)
          · refine hB x hx ?_ y hadj
            intro hmem
            rcases List.mem_cons.mp hmem with h | h
            · exact hxn h
            · exact hxV h

/-
The component-collecting fold maintains the cluster invariant.
-/

theorem clusterStep_inv (edges : List (String × String)) (fuel : Nat)
    (hfuel : (graphKeys edges).length < fuel)
    (V : List String) (comps : List (List String)) (node : String)
    (hnode : node ∈ graphKeys edges) (hinv : ClusterInv edges (V, comps))
    (hnew : node ∉ V) :
    ClusterInv edges ((dfs edges fuel node (V, [])).1,
      comps ++ [(dfs edges fuel node (V, [])).2]) ∧
    node ∈ (dfs edges fuel node (V, [])).1 := by
  obtain ⟨hVkeys, hVclosed, hVunion, hdisj, hnodup, hconn, hCclosed, hne⟩ := hinv
  obtain ⟨d, hd2, hmem, hdnodup, hddisj, hdreach, hdelem⟩ := dfs_spec edges fuel node V []
  simp only [List.nil_append] at hd2
  have hbound : freshCount edges V < fuel :=
    lt_of_le_of_lt (freshCount_le_length edges V) hfuel
  obtain ⟨hnodein, hclo⟩ := dfs_closed edges fuel node V [] hnode hbound
  have hnoded : node ∈ d := by
    rcases (hmem node).mp hnodein with h | h
    · exact h
    · exact absurd h hnew
  have hVsub : ∀ x ∈ V, x ∈ (dfs edges fuel node (V, [])).1 := by
    intro x hx
    exact dfs_visited_mono edges fuel node V [] hx
  have hdin : ∀ x ∈ d, x ∈ (dfs edges fuel node (V, [])).1 := by
    intro x hx
    exact (hmem x).mpr (Or.inl hx)
  have hVclosed' : ∀ x ∈ (dfs edges fuel node (V, [])).1, ∀ y, adjacent edges x y →
      y ∈ (dfs edges fuel node (V, [])).1 := by
    intro x hx y hadj
    rcases (hmem x).mp hx with h | h
    · exact hclo x hx (hddisj x h) y hadj
    · exact hVsub y (hVclosed x h y hadj)
  refine ⟨⟨?_, hVclosed', ?_, ?_, ?_, ?_, ?_, ?_⟩, hnodein⟩
  · intro x hx
    rcases (hmem x).mp hx with h | h
    · rcases hdelem x h with h' | h'
      · exact h' ▸ hnode
      · exact h'
    · exact hVkeys x h
  · intro x
    rw [hd2]
    simp only [List.mem_append, List.mem_singleton]
    constructor
    · intro hx
      rcases (hmem x).mp hx with h | h
      · exact ⟨d, Or.inr rfl, h⟩
      · obtain ⟨C, hC, hxC⟩ := (hVunion x).mp h
        exact ⟨C, Or.inl hC, hxC⟩
    · rintro ⟨C, hC | hC, hxC⟩
      · exact hVsub x ((hVunion x).mpr ⟨C, hC, hxC⟩)
      · exact hdin x (hC ▸ hxC)
  · rw [hd2, List.pairwise_append]
    refine ⟨hdisj, by simp, ?_⟩
    intro C hC D hD x hxC
    simp only [List.mem_singleton] at hD
    subst hD
    intro hxd
    exact hddisj x hxd ((hVunion x).mpr ⟨C, hC, hxC⟩)
  · intro C hC
    rw [hd2] at hC
    rcases List.mem_append.mp hC with h | h
    · exact hnodup C h
    · simp only [List.mem_singleton] at h
      exact h ▸ hdnodup
  · intro C hC x hx y hy
    rw [hd2] at hC
    rcases List.mem_append.mp hC with h | h
    · exact hconn C h x hx y hy
    · simp only [List.mem_singleton] at h
      subst h
      exact (reach_symm edges (hdreach x hx)).trans (hdreach y hy)
  · intro C hC x hx y hadj
    rw [hd2] at hC
    rcases List.mem_append.mp hC with h | h
    · exact hCclosed C h x hx y hadj
    · simp only [List.mem_singleton] at h
      subst h
      have hy : y ∈ (dfs edges fuel node (V, [])).1 := hVclosed' x (hdin x hx) y hadj
      rcases (hmem y).mp hy with h' | h'
      · exact h'
      · exfalso
        have hxV : x ∈ V := hVclosed y h' x (adjacent_symm edges hadj)
        exact hddisj x hx hxV
  · intro C hC
    rw [hd2] at hC
    rcases List.mem_append.mp hC with h | h
    · exact hne C h
    · simp only [List.mem_singleton] at h
      subst h
      exact List.ne_nil_of_mem hnoded

theorem compFold_inv (edges : List (String × String)) (fuel : Nat)
    (hfuel : (graphKeys edges).length < fuel) :
    ∀ (ns : List String) (V : List String) (comps : List (List String)),
      ClusterInv edges (V, comps) → (∀ n ∈ ns, n ∈ graphKeys edges) →
      ClusterInv edges (ns.foldl (fun st node =>
        if node ∈ st.1 then st
        else
          let r := dfs edges fuel node (st.1, [])
          (r.1, st.2 ++ [r.2])) (V, comps)) ∧
      (∀ n ∈ ns, n ∈ (ns.foldl (fun st node =>
        if node ∈ st.1 then st
        else
          let r := dfs edges fuel node (st.1, [])
          (r.1, st.2 ++ [r.2])) (V, comps)).1) ∧
      (∀ x ∈ V, x ∈ (ns.foldl (fun st node =>
        if node ∈ st.1 then st
        else
          let r := dfs edges fuel node (st.1, [])
          (r.1, st.2 ++ [r.2])) (V, comps)).1) ∧
      (∃ new, (ns.foldl (fun st node =>
        if node ∈ st.1 then st
        else
          let r := dfs edges fuel node (st.1, [])
          (r.1, st.2 ++ [r.2])) (V, comps)).2 = comps ++ new) := by
  intro ns
  induction ns with
  | nil =>
      intro V comps hinv _
      refine ⟨hinv, by simp, by simp, ⟨[], by simp⟩⟩
  | cons n ns ih =>
      intro V comps hinv hkeys
      have hn : n ∈ graphKeys edges := hkeys n (List.mem_cons_self n ns)
      have hkeys' : ∀ m ∈ ns, m ∈ graphKeys edges := fun m hm =>
        hkeys m (List.mem_cons_of_mem n hm)
      rw [List.foldl_cons]
      by_cases hv : n ∈ V
      · have hstep : (if n ∈ (V, comps).1 then (V, comps)
            else
              let r := dfs edges fuel n ((V, comps).1, [])
              (r.1, (V, comps).2 ++ [r.2])) = (V, comps) := by
          simp [hv]
        rw [hstep]
        obtain ⟨hinv', hA, hmono, hnew⟩ := ih V comps hinv hkeys'
        refine ⟨hinv', ?_, hmono, hnew⟩
        intro m hm
        rcases List.mem_cons.mp hm with h | h
        · exact h ▸ hmono n hv
        · exact hA m h
      · have hstep : (if n ∈ (V, comps).1 then (V, comps)
            else
              let r := dfs edges fuel n ((V, comps).1, [])
              (r.1, (V, comps).2 ++ [r.2])) =
            ((dfs edges fuel n (V, [])).1, comps ++ [(dfs edges fuel n (V, [])).2]) := by
          simp [hv]
        rw [hstep]
        obtain ⟨hinv1, hnin⟩ := clusterStep_inv edges fuel hfuel V comps n hn hinv hv
        obtain ⟨hinv', hA, hmono, new, hnew⟩ :=
          ih (dfs edges fuel n (V, [])).1 (comps ++ [(dfs edges fuel n (V, [])).2])
            hinv1 hkeys'
        refine ⟨hinv', ?_, ?_, ?_⟩
        · intro m hm
          rcases List.mem_cons.mp hm with h | h
          · exact h ▸ hmono n hnin
          · exact hA m h
        · intro x hx
          exact hmono x (dfs_visited_mono edges fuel n V [] hx)
        · exact ⟨[(dfs edges fuel n (V, [])).2] ++ new, by rw [hnew, List.append_assoc]⟩

theorem componentsFold_partition (edges : List (String × String)) :
    ClusterInv edges (componentsFold edges (graphKeys edges)
      ((graphKeys edges).length + 1)) ∧
    ∀ x, (∃ C ∈ (componentsFold edges (graphKeys edges)
      ((graphKeys edges).length + 1)).2, x ∈ C) ↔ x ∈ graphKeys edges := by
  have hinit : ClusterInv edges (([] : List String), ([] : List (List String))) := by
    refine ⟨by simp, by simp, by simp, by simp, by simp, by simp, by simp, by simp⟩
  obtain ⟨hinv, hA, _, _⟩ := compFold_inv edges ((graphKeys edges).length + 1)
    (by omega) (graphKeys edges) [] [] hinit (fun n hn => hn)
  rw [componentsFold]
  refine ⟨hinv, ?_⟩
  intro x
  constructor
  · rintro ⟨C, hC, hxC⟩
    exact hinv.1 x ((hinv.2.2.1 x).mpr ⟨C, hC, hxC⟩)
  · intro hx
    exact (hinv.2.2.1 x).mp (hA x hx)

theorem buildFold_filter (edges : List (String × String)) (fuel : Nat) :
    ∀ (ns : List String) (V : List String) (comps : List (List String)),
      (ns.foldl (fun st image =>
        if image ∈ st.1 then st
        else
          let r := dfs edges fuel image (st.1, [])
          if 1 < r.2.length then (r.1, st.2 ++ [r.2]) else (r.1, st.2))
        (V, comps.filter (fun c => decide (1 < c.length)))).2 =
      ((ns.foldl (fun st node =>
        if node ∈ st.1 then st
        else
          let r := dfs edges fuel node (st.1, [])
          (r.1, st.2 ++ [r.2])) (V, comps)).2).filter
        (fun c => decide (1 < c.length)) := by
  intro ns
  induction ns with
  | nil => intro V comps; simp
  | cons n ns ih =>
      intro V comps
      rw [List.foldl_cons, List.foldl_cons]
      by_cases hv : n ∈ V
      · have h1 : (if n ∈ (V, comps.filter (fun c => decide (1 < c.length))).1
            then (V, comps.filter (fun c => decide (1 < c.length)))
            else
              let r := dfs edges fuel n ((V, comps.filter (fun c => decide (1 < c.length))).1, [])
              if 1 < r.2.length
              then (r.1, (V, comps.filter (fun c => decide (1 < c.length))).2 ++ [r.2])
              else (r.1, (V, comps.filter (fun c => decide (1 < c.length))).2)) =
            (V, comps.filter (fun c => decide (1 < c.length))) := by
          simp [hv]
        have h2 : (if n ∈ (V, comps).1 then (V, comps)
            else
              let r := dfs edges fuel n ((V, comps).1, [])
              (r.1, (V, comps).2 ++ [r.2])) = (V, comps) := by
          simp [hv]
        rw [h1, h2]
        exact ih V comps
      · by_cases hlen : 1 < (dfs edges fuel n (V, [])).2.length
        · have h1 : (if n ∈ (V, comps.filter (fun c => decide (1 < c.length))).1
              then (V, comps.filter (fun c => decide (1 < c.length)))
              else
                let r := dfs edges fuel n
                  ((V, comps.filter (fun c => decide (1 < c.length))).1, [])
                if 1 < r.2.length
                then (r.1, (V, comps.filter (fun c => decide (1 < c.length))).2 ++ [r.2])
                else (r.1, (V, comps.filter (fun c => decide (1 < c.length))).2)) =
              ((dfs edges fuel n (V, [])).1,
                (comps ++ [(dfs edges fuel n (V, [])).2]).filter
                  (fun c => decide (1 < c.length))) := by
            simp [hv, hlen]
          have h2 : (if n ∈ (V, comps).1 then (V, comps)
              else
                let r := dfs edges fuel n ((V, comps).1, [])
                (r.1, (V, comps).2 ++ [r.2])) =
              ((dfs edges fuel n (V, [])).1, comps ++ [(dfs edges fuel n (V, [])).2]) := by
            simp [hv]
          rw [h1, h2]
          exact ih (dfs edges fuel n (V, [])).1 (comps ++ [(dfs edges fuel n (V, [])).2])
        · have h1 : (if n ∈ (V, comps.filter (fun c => decide (1 < c.length))).1
              then (V, comps.filter (fun c => decide (1 < c.length)))
              else
                let r := dfs edges fuel n
                  ((V, comps.filter (fun c => decide (1 < c.length))).1, [])
                if 1 < r.2.length
                then (r.1, (V, comps.filter (fun c => decide (1 < c.length))).2 ++ [r.2])
                else (r.1, (V, comps.filter (fun c => decide (1 < c.length))).2)) =
              ((dfs edges fuel n (V, [])).1,
                (comps ++ [(dfs edges fuel n (V, [])).2]).filter
                  (fun c => decide (1 < c.length))) := by
            simp [hv, hlen]
          have h2 : (if n ∈ (V, comps).1 then (V, comps)
              else
                let r := dfs edges fuel n ((V, comps).1, [])
                (r.1, (V, comps).2 ++ [r.2])) =
              ((dfs edges fuel n (V, [])).1, comps ++ [(dfs edges fuel n (V, [])).2]) := by
            simp [hv]
          rw [h1, h2]
          exact ih (dfs edges fuel n (V, [])).1 (comps ++ [(dfs edges fuel n (V, [])).2])

theorem build_scene_clusters_eq_filter (ms : List MatchRecord) :
    build_scene_clusters ms =
      ((componentsFold (edgesOfMatches ms) (graphKeys (edgesOfMatches ms))
        ((graphKeys (edgesOfMatches ms)).length + 1)).2).filter
        (fun c => decide (1 < c.length)) := by
  rw [build_scene_clusters, componentsFold]
  have := buildFold_filter (edgesOfMatches ms)
    ((graphKeys (edgesOfMatches ms)).length + 1)
    (graphKeys (edgesOfMatches ms)) [] []
  simpa using this

theorem length_le_maxClusterSize {cs : List (List String)} {C : List String}
    (h : C ∈ cs) : C.length ≤ maxClusterSize cs := by
  induction cs with
  | nil => simp at h
  | cons D cs ih =>
      rw [maxClusterSize, List.map_cons, List.foldr_cons]
      rcases List.mem_cons.mp h with h' | h'
      · exact h' ▸ Nat.le_max_left _ _
      · exact Nat.le_trans (ih h') (Nat.le_max_right _ _)

theorem maxClusterSize_le {cs : List (List String)} {b : Nat}
    (h : ∀ C ∈ cs, C.length ≤ b) : maxClusterSize cs ≤ b := by
  induction cs with
  | nil => simp [maxClusterSize]
  | cons D cs ih =>
      rw [maxClusterSize, List.map_cons, List.foldr_cons]
      refine Nat.max_le.mpr ⟨h D (List.mem_cons_self _ _), ?_⟩
      exact ih (fun C hC => h C (List.mem_cons_of_mem _ hC))

theorem two_le_length_of_mem_ne {l : List String} {x z : String}
    (hx : x ∈ l) (hz : z ∈ l) (hne : x ≠ z) : 2 ≤ l.length := by
  cases l with
  | nil => simp at hx
  | cons a t =>
      cases t with
      | nil =>
          simp at hx hz
          exact absurd (hx.trans hz.symm) hne
      | cons b t2 => simp [List.length_cons]

theorem filter_matches_subset (ms : List MatchRecord) (minM : Nat) (minC : ℚ) :
    ∀ m ∈ filter_matches ms minM minC, m ∈ ms := by
  intro m hm
  rw [filter_matches] at hm
  exact (List.mem_filter.mp hm).1

theorem mem_keys_edgesOfMatches (rs : List MatchRecord) (x : String) :
    x ∈ graphKeys (edgesOfMatches rs) ↔ ∃ m ∈ rs, x = m.image1 ∨ x = m.image2 := by
  rw [mem_graphKeys]
  constructor
  · rintro ⟨e, he, hx⟩
    rcases List.mem_map.mp he with ⟨m, hm, hme⟩
    refine ⟨m, hm, ?_⟩
    rw [← hme] at hx
    exact hx
  · rintro ⟨m, hm, hx⟩
    exact ⟨(m.image1, m.image2), List.mem_map.mpr ⟨m, hm, rfl⟩, hx⟩

theorem edgesOfMatches_self_ne (rs : List MatchRecord)
    (hself : ∀ m ∈ rs, m.image1 ≠ m.image2) :
    ∀ e ∈ edgesOfMatches rs, e.1 ≠ e.2 := by
  intro e he
  rcases List.mem_map.mp he with ⟨m, hm, hme⟩
  rw [← hme]
  exact hself m hm

theorem comps_two_le_length (edges : List (String × String))
    (hself : ∀ e ∈ edges, e.1 ≠ e.2) :
    ∀ C ∈ (componentsFold edges (graphKeys edges)
      ((graphKeys edges).length + 1)).2, 2 ≤ C.length := by
  obtain ⟨hinv, hpart⟩ := componentsFold_partition edges
  intro C hC
  have hne : C ≠ [] := hinv.2.2.2.2.2.2.2 C hC
  obtain ⟨x, hx⟩ := List.exists_mem_of_ne_nil C hne
  have hxkeys : x ∈ graphKeys edges := (hpart x).mp ⟨C, hC, hx⟩
  obtain ⟨e, he, hxe⟩ := (mem_graphKeys edges x).mp hxkeys
  rcases hxe with h1 | h2
  · have hadj : adjacent edges x e.2 := ⟨e, he, Or.inl ⟨h1.symm, rfl⟩⟩
    have hz : e.2 ∈ C := hinv.2.2.2.2.2.2.1 C hC x hx e.2 hadj
    exact two_le_length_of_mem_ne hx hz (fun h => hself e he (h1 ▸ h ▸ rfl))
  · have hadj : adjacent edges x e.1 := ⟨e, he, Or.inr ⟨rfl, h2.symm⟩⟩
    have hz : e.1 ∈ C := hinv.2.2.2.2.2.2.1 C hC x hx e.1 hadj
    exact two_le_length_of_mem_ne hx hz (fun h => hself e he (h ▸ h2 ▸ rfl))

/-- C5 (counterexample): on a filtered record relating an image to itself the
clusterer drops the singleton component, so the union of the returned
clusters misses "a" even though "a" appears in a filtered record. -/
theorem C5_counterexample :
    build_scene_clusters (filter_matches
      [{ image1 := "a", image2 := "a", match_count := 80, confidence := 1,
         valid := true }] 50 0) = [] ∧
    ∃ m ∈ filter_matches
      [{ image1 := "a", image2 := "a", match_count := 80, confidence := 1,
         valid := true }] 50 0, "a" = m.image1 ∨ "a" = m.image2 := by
  constructor
  · decide
  · decide

/-- C5 (amended: provided no filtered record relates an image to itself —
the pipelines generate only `i<j` pairs of distinct names, but the claim as
stated quantifies over arbitrary records): the union of the members of all
clusters returned by `build_scene_clusters` over the filtered records equals
exactly the set of ImageIDs appearing in at least one filtered record, no
ImageID appears in two different returned clusters, and every returned
cluster has at least 2 members. -/
theorem C5_cluster_partition (ms : List MatchRecord) (minM : Nat) (minC : ℚ)
    (hself : ∀ m ∈ ms, m.image1 ≠ m.image2) :
    (∀ x, (∃ C ∈ build_scene_clusters (filter_matches ms minM minC), x ∈ C) ↔
      ∃ m ∈ filter_matches ms minM minC, x = m.image1 ∨ x = m.image2) ∧
    (build_scene_clusters (filter_matches ms minM minC)).Pairwise
      (fun C D => ∀ x ∈ C, x ∉ D) ∧
    (∀ C ∈ build_scene_clusters (filter_matches ms minM minC), 2 ≤ C.length) := by
  have hselfE : ∀ e ∈ edgesOfMatches (filter_matches ms minM minC), e.1 ≠ e.2 :=
    edgesOfMatches_self_ne _ (fun m hm =>
      hself m (filter_matches_subset ms minM minC m hm))
  have h2 := comps_two_le_length (edgesOfMatches (filter_matches ms minM minC)) hselfE
  have hcs : build_scene_clusters (filter_matches ms minM minC) =
      (componentsFold (edgesOfMatches (filter_matches ms minM minC))
        (graphKeys (edgesOfMatches (filter_matches ms minM minC)))
        ((graphKeys (edgesOfMatches (filter_matches ms minM minC))).length + 1)).2 := by
    rw [build_scene_clusters_eq_filter]
    apply List.filter_eq_self.mpr
    intro C hC
    simpa using Nat.lt_of_lt_of_le Nat.one_lt_two (h2 C hC)
  obtain ⟨hinv, hpart⟩ :=
    componentsFold_partition (edgesOfMatches (filter_matches ms minM minC))
  rw [hcs]
  refine ⟨?_, hinv.2.2.2.1, h2⟩
  intro x
  rw [hpart x, mem_keys_edgesOfMatches]

/-- C5 (witness): the amended statement at a two-record input with distinct
endpoints. -/
theorem C5_cluster_partition_witness :
    (∀ m ∈ ([⟨"A", "B", 80, 1, true⟩, ⟨"B", "C", 60, 1, true⟩] :
        List MatchRecord), m.image1 ≠ m.image2) ∧
    ∀ C ∈ build_scene_clusters (filter_matches
      ([⟨"A", "B", 80, 1, true⟩, ⟨"B", "C", 60, 1, true⟩] : List MatchRecord)
      50 0), 2 ≤ C.length :=
  ⟨by decide,
    (C5_cluster_partition
      ([⟨"A", "B", 80, 1, true⟩, ⟨"B", "C", 60, 1, true⟩] : List MatchRecord)
      50 0 (by decide)).2.2⟩

theorem graphKeys_mono {edges' edges : List (String × String)}
    (hsub : edges' ⊆ edges) {x : String} (hx : x ∈ graphKeys edges') :
    x ∈ graphKeys edges := by
  obtain ⟨e, he, hxe⟩ := (mem_graphKeys edges' x).mp hx
  exact (mem_graphKeys edges x).mpr ⟨e, hsub he, hxe⟩

theorem maxClusterSize_mono (ms' ms : List MatchRecord)
    (hsub : ∀ m ∈ ms', m ∈ ms) :
    maxClusterSize (build_scene_clusters ms') ≤
      maxClusterSize (build_scene_clusters ms) := by
  have hEsub : edgesOfMatches ms' ⊆ edgesOfMatches ms := by
    intro e he
    rcases List.mem_map.mp he with ⟨m, hm, hme⟩
    exact List.mem_map.mpr ⟨m, hsub m hm, hme⟩
  obtain ⟨hinv', hpart'⟩ := componentsFold_partition (edgesOfMatches ms')
  obtain ⟨hinv, hpart⟩ := componentsFold_partition (edgesOfMatches ms)
  apply maxClusterSize_le
  intro C' hC'
  rw [build_scene_clusters_eq_filter] at hC'
  obtain ⟨hC'mem, hC'len⟩ := List.mem_filter.mp hC'
  simp only [decide_eq_true_eq] at hC'len
  have hne : C' ≠ [] := hinv'.2.2.2.2.2.2.2 C' hC'mem
  obtain ⟨x₀, hx₀⟩ := List.exists_mem_of_ne_nil C' hne
  have hx₀keys : x₀ ∈ graphKeys (edgesOfMatches ms) :=
    graphKeys_mono hEsub ((hpart' x₀).mp ⟨C', hC'mem, hx₀⟩)
  obtain ⟨C, hC, hx₀C⟩ := (hpart x₀).mpr hx₀keys
  have hsubC : ∀ y ∈ C', y ∈ C := by
    intro y hy
    have hr' := hinv'.2.2.2.2.2.1 C' hC'mem x₀ hx₀ y hy
    have hr : Relation.ReflTransGen (adjacent (edgesOfMatches ms)) x₀ y :=
      Relation.ReflTransGen.mono (fun a b hab => adjacent_mono hEsub hab) hr'
    exact reach_closed (edgesOfMatches ms)
      (hinv.2.2.2.2.2.2.1 C hC) hx₀C hr
  have hlen : C'.length ≤ C.length := by
    have h1 : C'.toFinset.card = C'.length :=
      List.toFinset_card_of_nodup (hinv'.2.2.2.2.1 C' hC'mem)
    have h2 : C'.toFinset ⊆ C.toFinset := by
      intro y hy
      exact List.mem_toFinset.mpr (hsubC y (List.mem_toFinset.mp hy))
    calc C'.length = C'.toFinset.card := h1.symm
      _ ≤ C.toFinset.card := Finset.card_le_card h2
      _ ≤ C.length := List.toFinset_card_le C
  have hCkept : C ∈ build_scene_clusters ms := by
    rw [build_scene_clusters_eq_filter]
    refine List.mem_filter.mpr ⟨hC, ?_⟩
    simp only [decide_eq_true_eq]
    omega
  exact Nat.le_trans hlen (length_le_maxClusterSize hCkept)

/-- C6: raising either threshold shrinks the filtered record set (it is a
sublist of the original selection), therefore the built graph has no more
edges (edge-relation inclusion), and the size of the largest resulting
cluster does not increase. -/
theorem C6_filter_monotonicity (ms : List MatchRecord) (m₁ m₂ : Nat) (c₁ c₂ : ℚ)
    (hm : m₁ ≤ m₂) (hc : c₁ ≤ c₂) :
    (filter_matches ms m₂ c₂).Sublist (filter_matches ms m₁ c₁) ∧
    (∀ x y, adjacent (edgesOfMatches (filter_matches ms m₂ c₂)) x y →
      adjacent (edgesOfMatches (filter_matches ms m₁ c₁)) x y) ∧
    maxClusterSize (build_scene_clusters (filter_matches ms m₂ c₂)) ≤
      maxClusterSize (build_scene_clusters (filter_matches ms m₁ c₁)) := by
  have hsub : (filter_matches ms m₂ c₂).Sublist (filter_matches ms m₁ c₁) := by
    rw [filter_matches, filter_matches]
    apply List.monotone_filter_right
    intro a ha
    simp only [Bool.and_eq_true, decide_eq_true_eq] at ha ⊢
    exact ⟨⟨ha.1.1, le_trans hm ha.1.2⟩, le_trans hc ha.2⟩
  have hmemsub : ∀ m ∈ filter_matches ms m₂ c₂, m ∈ filter_matches ms m₁ c₁ :=
    fun m hm' => hsub.subset hm'
  refine ⟨hsub, ?_, maxClusterSize_mono _ _ hmemsub⟩
  intro x y hadj
  apply adjacent_mono ?_ hadj
  intro e he
  rcases List.mem_map.mp he with ⟨m, hm', hme⟩
  exact List.mem_map.mpr ⟨m, hmemsub m hm', hme⟩

/-- C6 (witness): the monotonicity statement at concrete thresholds. -/
theorem C6_filter_monotonicity_witness :
    50 ≤ 60 ∧ (0 : ℚ) ≤ 1 ∧
    maxClusterSize (build_scene_clusters (filter_matches
      ([⟨"A", "B", 80, 2, true⟩, ⟨"B", "C", 55, 2, true⟩] : List MatchRecord)
      60 1)) ≤
    maxClusterSize (build_scene_clusters (filter_matches
      ([⟨"A", "B", 80, 2, true⟩, ⟨"B", "C", 55, 2, true⟩] : List MatchRecord)
      50 0)) :=
  ⟨by decide, by norm_num,
    (C6_filter_monotonicity
      ([⟨"A", "B", 80, 2, true⟩, ⟨"B", "C", 55, 2, true⟩] : List MatchRecord)
      50 60 0 1 (by decide) (by norm_num)).2.2⟩

/-- C7: the spec's concrete scenario — 5 images A..E, valid matches A–B
(80, 0.9), B–C (60, 0.7), D–E (40, 0.4), thresholds 50 and 0.5: the filter
keeps exactly A–B and B–C, clustering returns exactly one cluster with
member set {A, B, C}, and D and E appear in no cluster. -/
theorem C7_scenario :
    filter_matches
      ([⟨"A", "B", 80, 9/10, true⟩, ⟨"B", "C", 60, 7/10, true⟩,
        ⟨"D", "E", 40, 2/5, true⟩] : List MatchRecord) 50 (1/2) =
      ([⟨"A", "B", 80, 9/10, true⟩, ⟨"B", "C", 60, 7/10, true⟩] :
        List MatchRecord) ∧
    build_scene_clusters (filter_matches
      ([⟨"A", "B", 80, 9/10, true⟩, ⟨"B", "C", 60, 7/10, true⟩,
        ⟨"D", "E", 40, 2/5, true⟩] : List MatchRecord) 50 (1/2)) =
      [["A", "B", "C"]] ∧
    ∀ C ∈ build_scene_clusters (filter_matches
      ([⟨"A", "B", 80, 9/10, true⟩, ⟨"B", "C", 60, 7/10, true⟩,
        ⟨"D", "E", 40, 2/5, true⟩] : List MatchRecord) 50 (1/2)),
      "D" ∉ C ∧ "E" ∉ C := by
  have hf : filter_matches
      ([⟨"A", "B", 80, 9/10, true⟩, ⟨"B", "C", 60, 7/10, true⟩,
        ⟨"D", "E", 40, 2/5, true⟩] : List MatchRecord) 50 (1/2) =
      ([⟨"A", "B", 80, 9/10, true⟩, ⟨"B", "C", 60, 7/10, true⟩] :
        List MatchRecord) := by
    rw [filter_matches]
    simp only [List.filter_cons, List.filter_nil, Bool.and_eq_true,
      decide_eq_true_eq]
    norm_num
  have hb : build_scene_clusters
      ([⟨"A", "B", 80, 9/10, true⟩, ⟨"B", "C", 60, 7/10, true⟩] :
        List MatchRecord) = [["A", "B", "C"]] := by
    decide
  refine ⟨hf, ?_, ?_⟩
  · rw [hf, hb]
  · rw [hf, hb]
    intro C hC
    simp only [List.mem_singleton] at hC
    subst hC
    decide

/-- C8 (counterexample): two components of equal size are returned in
discovery order, not ordered by their lexicographically smallest member:
with matches b–x then a–y, the component {b, x} precedes {a, y} even though
"a" < "b" — Python's `clusters.sort(key=len, reverse=True)` has no
tie-break. -/
theorem C8_counterexample :
    find_connected_components [("b", "x"), ("a", "y")] = [["b", "x"], ["a", "y"]] ∧
    ¬ sizeThenMinOrdered (find_connected_components [("b", "x"), ("a", "y")]) := by
  have heq : find_connected_components [("b", "x"), ("a", "y")] =
      [["b", "x"], ["a", "y"]] := by decide
  refine ⟨heq, ?_⟩
  intro h
  rw [sizeThenMinOrdered, heq] at h
  have hr := (List.pairwise_cons.mp h).1 ["a", "y"] (List.mem_singleton.mpr rfl)
  rcases hr with hlt | ⟨_, hle⟩
  · simp at hlt
  · have h1 : minMember ["b", "x"] = "b" := by decide
    have h2 : minMember ["a", "y"] = "a" := by decide
    rw [h1, h2, String.le_iff_toList_le] at hle
    exact absurd hle (by decide)

/-- C8 (amended: components are sorted by descending size, ties remaining in
discovery order — there is no lexicographic tie-break; within each
component, members are sorted lexicographically before serialization): the
component list returned by `find_connected_components` is pairwise
non-increasing in size, and the serialized member lines of any cluster are
lexicographically sorted and contain exactly the cluster's members. -/
theorem C8_components_sorted (pairs : List (String × String)) :
    (find_connected_components pairs).Pairwise
      (fun C D => D.length ≤ C.length) ∧
    ∀ C : List String,
      (clusterFileLines C).Sorted (fun a b : String => a ≤ b) ∧
      ∀ x, x ∈ clusterFileLines C ↔ x ∈ C := by
  constructor
  · rw [find_connected_components]
    haveI h1 : IsTotal (List String) (fun a b : List String => b.length ≤ a.length) :=
      ⟨fun a b => (Nat.le_total a.length b.length).symm⟩
    haveI h2 : IsTrans (List String) (fun a b : List String => b.length ≤ a.length) :=
      ⟨fun _ _ _ hab hbc => le_trans hbc hab⟩
    exact List.sorted_insertionSort _ _
  · intro C
    constructor
    · haveI ht1 : IsTotal String (fun a b : String => a.toList ≤ b.toList) :=
        ⟨fun a b => le_total a.toList b.toList⟩
      haveI ht2 : IsTrans String (fun a b : String => a.toList ≤ b.toList) :=
        ⟨fun _ _ _ hab hbc => le_trans hab hbc⟩
      have hs := List.sorted_insertionSort
        (fun a b : String => a.toList ≤ b.toList) C
      exact hs.imp (fun h => String.le_iff_toList_le.mpr h)
    · intro x
      exact (List.perm_insertionSort _ C).mem_iff

/-- C9: checkpoint load computes the processed-image set as the
duplicate-free union of the HDF5 keys and the checkpoint-file lines (the
HDF5 key list itself is duplicate-free, being the key set of a keyed file),
and the remaining work is exactly the input images whose names are not in
that union. -/
theorem C9_checkpoint_resume (h5_keys checkpoint_images image_names : List String)
    (hnd : h5_keys.Nodup) :
    (load_processed_images h5_keys checkpoint_images).Nodup ∧
    (∀ x, x ∈ load_processed_images h5_keys checkpoint_images ↔
      x ∈ h5_keys ∨ x ∈ checkpoint_images) ∧
    remainingImages image_names (load_processed_images h5_keys checkpoint_images) =
      image_names.filter (fun p => decide (¬ (p ∈ h5_keys ∨ p ∈ checkpoint_images))) := by
  refine ⟨mergeNoDup_nodup checkpoint_images h5_keys hnd, ?_, ?_⟩
  · intro x
    exact mergeNoDup_mem checkpoint_images h5_keys x
  · rw [remainingImages]
    apply List.filter_congr
    intro p _
    apply decide_eq_decide.mpr
    exact not_congr (mergeNoDup_mem checkpoint_images h5_keys p)

/-- C9 (witness): the checkpoint merge at concrete key and line lists. -/
theorem C9_checkpoint_resume_witness :
    (["a", "b"] : List String).Nodup ∧
    remainingImages ["a", "c", "d"] (load_processed_images ["a", "b"] ["b", "c"]) =
      (["a", "c", "d"] : List String).filter
        (fun p => decide (¬ (p ∈ (["a", "b"] : List String) ∨
          p ∈ (["b", "c"] : List String)))) :=
  ⟨by decide, (C9_checkpoint_resume ["a", "b"] ["b", "c"] ["a", "c", "d"]
    (by decide)).2.2⟩
